import Mathlib

/-!
Verification of the oRinGD crack-rating pipeline.

The development shallowly embeds the measurement and rating code of the
repository: the ISO 23936 rating engine (`rating.py`), the session
serialization boundary (`session_store.py`), and the geometric pipeline of
`canvas_gv.py` (Douglas–Peucker simplification, perimeter construction,
CSD computation, crack classification and point/polyline distances).

Python floats are modelled as exact numbers: the rating engine (pure
comparisons and sums of percentages) over `ℚ`, the geometry (which uses
square roots through `math.hypot`) over `ℝ`.
-/

namespace ORinGD

/-- A crack record as used by `rating.py`: a `(type, percent-of-CSD)` pair.
The type is one of the strings `"Internal"`, `"External"`, `"Split"`
(`Crack = Tuple[str, float]` in the source). -/
abbrev Crack := String × ℚ

/-- Mirror of the frozen dataclass `Metrics` of `rating.py`. -/
structure Metrics where
  num_cracks : ℕ
  total_pct : ℚ
  internal_pct : List ℚ
  external_pct : List ℚ
  has_split : Bool
  num_lt25 : ℕ
  num_lt50 : ℕ
  all_ext_lt10 : Bool
  all_ext_lt25 : Bool
  all_ext_lt50 : Bool
  internal_50_80_count : ℕ
  internal_above_80 : ℕ
  internal_above_50 : ℕ
  has_three_internal_above_50 : Bool
  deriving Repr, DecidableEq

/-- Percentages of the cracks whose type string is `"Internal"`
(`internal = [p for (t, p) in cracks if t == "Internal"]`). -/
def internalPcts (cracks : List Crack) : List ℚ :=
  (cracks.filter (fun c => c.1 == "Internal")).map (·.2)

/-- Percentages of the cracks whose type string is `"External"`
(`external = [p for (t, p) in cracks if t == "External"]`). -/
def externalPcts (cracks : List Crack) : List ℚ :=
  (cracks.filter (fun c => c.1 == "External")).map (·.2)

/-- Mirror of `compute_metrics` of `rating.py`. -/
def compute_metrics (cracks : List Crack) : Metrics :=
  if cracks.isEmpty then
    { num_cracks := 0, total_pct := 0,
      internal_pct := [], external_pct := [], has_split := false,
      num_lt25 := 0, num_lt50 := 0,
      all_ext_lt10 := true, all_ext_lt25 := true, all_ext_lt50 := true,
      internal_50_80_count := 0, internal_above_80 := 0,
      internal_above_50 := 0, has_three_internal_above_50 := false }
  else
    let internal := internalPcts cracks
    let external := externalPcts cracks
    let has_split := cracks.any (fun c => c.1 == "Split")
    let allp := internal ++ external
    let total := allp.sum
    let num_lt25 := allp.countP (fun p => decide (p < 25))
    let num_lt50 := allp.countP (fun p => decide (p < 50))
    let all_ext_lt10 := external.all (fun p => decide (p < 10))
    let all_ext_lt25 := external.all (fun p => decide (p < 25))
    let all_ext_lt50 := external.all (fun p => decide (p < 50))
    let internal_50_80_count := internal.countP (fun p => decide (50 ≤ p ∧ p ≤ 80))
    let internal_above_80 := internal.countP (fun p => decide (80 < p))
    let internal_above_50 := internal.countP (fun p => decide (50 < p))
    { num_cracks := cracks.length, total_pct := total,
      internal_pct := internal, external_pct := external, has_split := has_split,
      num_lt25 := num_lt25, num_lt50 := num_lt50,
      all_ext_lt10 := all_ext_lt10, all_ext_lt25 := all_ext_lt25,
      all_ext_lt50 := all_ext_lt50,
      internal_50_80_count := internal_50_80_count,
      internal_above_80 := internal_above_80,
      internal_above_50 := internal_above_50,
      has_three_internal_above_50 := 3 ≤ internal_above_50 }

/-- Mirror of `assign_rating_from_metrics` of `rating.py`: the ordered
rating cascade (0 / split-5 / rating-1 / rating-4 triggers / 2 / 3 /
default 4). -/
def assign_rating_from_metrics (m : Metrics) : ℕ :=
  if m.num_cracks = 0 then 0
  else if m.has_split then 5
  else if m.total_pct ≤ 100 ∧ m.num_lt25 = m.num_cracks ∧ m.all_ext_lt10 then 1
  else if 300 < m.total_pct ∨ 1 ≤ m.internal_above_80 ∨
          m.has_three_internal_above_50 ∨ ¬ m.all_ext_lt50 then 4
  else if m.total_pct ≤ 200 ∧ m.num_lt50 = m.num_cracks ∧ m.all_ext_lt25 then 2
  else if m.total_pct ≤ 300 ∧ m.internal_50_80_count ≤ 2 ∧ m.all_ext_lt50 then 3
  else 4

/-- Mirror of `assign_iso23936_rating` of `rating.py`. -/
def assign_iso23936_rating (cracks : List Crack) : ℕ :=
  assign_rating_from_metrics (compute_metrics cracks)

/-- The pass/fail verdict attached to a rating by `Canvas.update_rating_table`
in `main.py`: `"Pass" if assigned_rating <= 3 else "Fail"`. -/
def verdict (r : ℕ) : String :=
  if r ≤ 3 then "Pass" else "Fail"

/-- The `(rating, verdict)` pair that the application derives from a crack
list (the spec's `assign_rating`). -/
def assign_rating (cracks : List Crack) : ℕ × String :=
  (assign_iso23936_rating cracks, verdict (assign_iso23936_rating cracks))

/-- Mirror of `_cracks_to_json` of `session_store.py` on its declared types:
each `(str, float)` crack is emitted as a `(str, float)` JSON pair
(`[(ctype, float(length)) for ctype, length in cracks]`). -/
def cracks_to_json (cracks : List Crack) : List (String × ℚ) :=
  cracks.map (fun c => (c.1, c.2))

/-- Mirror of `_cracks_from_json` of `session_store.py` on well-formed
two-element entries: each entry is read back as `(str(entry[0]),
float(entry[1]))`. -/
def cracks_from_json (data : List (String × ℚ)) : List Crack :=
  data.map (fun e => (e.1, e.2))

/-! ### Geometry of canvas_gv.py -/

open scoped Classical

/-- A point in image-pixel coordinates. -/
abbrev Pt := ℝ × ℝ

/-- Model of `math.hypot`. -/
noncomputable def hypot (a b : ℝ) : ℝ := Real.sqrt (a * a + b * b)

/-- Mirror of `_perp_dist_to_segment` of `canvas_gv.py`. -/
noncomputable def perp_dist_to_segment (px py x1 y1 x2 y2 : ℝ) : ℝ :=
  let vx := x2 - x1
  let vy := y2 - y1
  if vx = 0 ∧ vy = 0 then hypot (px - x1) (py - y1)
  else
    let t := ((px - x1) * vx + (py - y1) * vy) / (vx * vx + vy * vy)
    if t ≤ 0 then hypot (px - x1) (py - y1)
    else if 1 ≤ t then hypot (px - x2) (py - y2)
    else hypot (px - (x1 + t * vx)) (py - (y1 + t * vy))

/-- The loop body of `_dist_to_polyline`: distance from `pt` to the
(clamped) segment `a`–`b`, with the degenerate-segment fallback. -/
noncomputable def seg_dist (pt a b : Pt) : ℝ :=
  let vx := b.1 - a.1
  let vy := b.2 - a.2
  if vx = 0 ∧ vy = 0 then hypot (pt.1 - a.1) (pt.2 - a.2)
  else
    let t := max 0 (min 1 (((pt.1 - a.1) * vx + (pt.2 - a.2) * vy) / (vx * vx + vy * vy)))
    hypot (pt.1 - (a.1 + t * vx)) (pt.2 - (a.2 + t * vy))

/-- Mirror of `_dist_to_polyline` of `canvas_gv.py`: a running minimum over
the closed segment list `zip(poly, poly[1:] + poly[:1])`, starting from
`float("inf")` (modelled as `⊤ : EReal`). -/
noncomputable def dist_to_polyline (pt : Pt) (poly : List Pt) : EReal :=
  (poly.zip (poly.drop 1 ++ poly.take 1)).foldl
    (fun best ab => min best ((seg_dist pt ab.1 ab.2 : ℝ) : EReal)) ⊤

/-- Mirror of the frozen dataclass `PerimeterData` of `canvas_gv.py`. -/
structure PerimeterData where
  control_points : List Pt
  spline_points : List Pt

/-- Mirror of `_endpoint_on_perimeter` of `canvas_gv.py` (its call sites use
the default `eps_px = 3.0`): false when no perimeter model exists or it has
fewer than 3 spline points, else a proximity test against the spline. -/
noncomputable def endpoint_on_perimeter (perimeter : Option PerimeterData) (p : Pt)
    (eps_px : ℝ) : Bool :=
  match perimeter with
  | none => false
  | some per =>
    if per.spline_points.length < 3 then false
    else decide (dist_to_polyline p per.spline_points ≤ (eps_px : EReal))

/-- Mirror of `_classify_crack_img` of `canvas_gv.py`: count how many of the
two endpoints lie on the perimeter and map 0/1/2 to the type string. -/
noncomputable def classify_crack_img (perimeter : Option PerimeterData)
    (crack_img : List Pt) : String :=
  if crack_img.isEmpty then "Internal"
  else
    let s := (if endpoint_on_perimeter perimeter (crack_img.headD (0, 0)) 3 then 1 else 0) +
      (if endpoint_on_perimeter perimeter (crack_img.getLastD (0, 0)) 3 then 1 else 0)
    if s = 0 then "Internal" else if s = 1 then "External" else "Split"

/-- The closed-curve length computed in `_set_perimeter`: consecutive
sample distances over `zip(spline_img, spline_img[1:])` plus the closing
distance from the first sample back to the last. -/
noncomputable def closed_length (spline_img : List Pt) : ℝ :=
  ((spline_img.zip (spline_img.drop 1)).foldl
    (fun acc ab => acc + hypot (ab.2.1 - ab.1.1) (ab.2.2 - ab.1.2)) 0) +
  (match spline_img with
   | [] => 0
   | p :: _ =>
     hypot (p.1 - (spline_img.getLastD (0, 0)).1) (p.2 - (spline_img.getLastD (0, 0)).2))

/-- The CSD stored by `_set_perimeter`:
`(per_len / math.pi) if per_len > 0 else 1.0`. -/
noncomputable def csd_of_spline (spline_img : List Pt) : ℝ :=
  if 0 < closed_length spline_img then closed_length spline_img / Real.pi else 1

/-- Model of `math.atan2` (the Python math library function used by
`_clockwise_sorted`), by its standard piecewise definition through
`arctan`, with range (-π, π]. -/
noncomputable def atan2 (y x : ℝ) : ℝ :=
  if 0 < x then Real.arctan (y / x)
  else if x < 0 ∧ 0 ≤ y then Real.arctan (y / x) + Real.pi
  else if x < 0 ∧ y < 0 then Real.arctan (y / x) - Real.pi
  else if x = 0 ∧ 0 < y then Real.pi / 2
  else if x = 0 ∧ y < 0 then -(Real.pi / 2)
  else 0

/-- The sort key of `_clockwise_sorted`: the polar angle of `p` around the
centroid of `pts` (`math.atan2(p[1]-cy, p[0]-cx)` with
`cx = sum(x)/len(pts)`, `cy = sum(y)/len(pts)`). -/
noncomputable def centroid_key (pts : List Pt) (p : Pt) : ℝ :=
  atan2 (p.2 - (pts.map (·.2)).sum / pts.length)
    (p.1 - (pts.map (·.1)).sum / pts.length)

/-- Mirror of `_clockwise_sorted` of `canvas_gv.py`: Python's stable
`sorted(pts, key=...)`, modelled by the stable `List.insertionSort` on the
non-decreasing key order. -/
noncomputable def clockwise_sorted (pts : List Pt) : List Pt :=
  if pts = [] then pts
  else List.insertionSort (fun p q => centroid_key pts p ≤ centroid_key pts q) pts

/-- The near-duplicate dropping loop of `_generate_perimeter_loop` (step 2):
keep a point only when it is at least 1.0 px from the last kept point. -/
noncomputable def perimeter_dedup (ordered : List Pt) : List Pt :=
  ordered.foldl
    (fun dedup p =>
      match dedup.getLast? with
      | none => dedup ++ [p]
      | some q => if 1 ≤ hypot (p.1 - q.1) (p.2 - q.2) then dedup ++ [p] else dedup)
    []

/-- Mirror of `_generate_perimeter_loop` of `canvas_gv.py`, abstracted over
the spline fit. The scipy `splprep`/`splev` periodic fit is external
library code, so it is a parameter `fit` (returning `none` on any fitting
failure, in which case the deduplicated polygon itself is the curve, as in
the source's exception handler). Returns `none` when fewer than 3 points
survive (the early `return`s), else the `(control_points, spline_points,
csd)` data stored by `_set_perimeter`. -/
noncomputable def generate_perimeter_loop (fit : List Pt → Option (List Pt))
    (perim_ctrl_img : List Pt) : Option (List Pt × List Pt × ℝ) :=
  if perim_ctrl_img.length < 3 then none
  else
    let ordered := clockwise_sorted perim_ctrl_img
    let dedup := perimeter_dedup ordered
    if dedup.length < 3 then none
    else
      let dedup2 :=
        if hypot ((dedup.headD (0, 0)).1 - (dedup.getLastD (0, 0)).1)
            ((dedup.headD (0, 0)).2 - (dedup.getLastD (0, 0)).2) < 1 / 1000000 then
          dedup.dropLast
        else dedup
      if dedup2.length < 3 then none
      else
        let spline_img := (fit dedup2).getD dedup2
        some (dedup2, spline_img, csd_of_spline spline_img)

/-- The perimeter-related state of `CanvasView`: the optional perimeter
model and the cached `_csd_px`. -/
structure CanvasPerimState where
  perimeter : Option PerimeterData
  csd_px : ℝ

/-- The initial state (`self._perimeter = None; self._csd_px = 1.0`), also
restored by `load_image` and `clear_overlays`. -/
noncomputable def initPerimState : CanvasPerimState := ⟨none, 1⟩

/-- Mirror of `_set_perimeter`: store the model and recompute the CSD. -/
noncomputable def set_perimeter (ctrl_img spline_img : List Pt)
    (_st : CanvasPerimState) : CanvasPerimState :=
  ⟨some ⟨ctrl_img, spline_img⟩, csd_of_spline spline_img⟩

/-- Mirror of `_clear_perimeter_loop` (and of the perimeter reset in
`load_image` and `clear_overlays`): drop the model and reset `_csd_px`. -/
noncomputable def clear_perimeter_loop (_st : CanvasPerimState) : CanvasPerimState :=
  ⟨none, 1⟩

/-! ### Douglas-Peucker simplification (rdp_simplify) -/

/-- Termination measure for the explicit stack of `rdp_simplify`: total
number of interior points over all pending intervals. -/
def stackMeasure (stack : List (ℕ × ℕ)) : ℕ :=
  stack.foldr (fun p acc => (p.2 - p.1 - 1) + acc) 0

/-- The distance computed in the scan loop of `rdp_simplify`: perpendicular
distance of `points[i]` from the chord `points[s]`–`points[e]`. -/
noncomputable def rdpD (points : List Pt) (s e i : ℕ) : ℝ :=
  perp_dist_to_segment (points.getD i (0, 0)).1 (points.getD i (0, 0)).2
    (points.getD s (0, 0)).1 (points.getD s (0, 0)).2
    (points.getD e (0, 0)).1 (points.getD e (0, 0)).2

/-- The inner scan `for i in range(s + 1, e)` of `rdp_simplify`: running
strict maximum of the distances with its first attaining index, from the
initial `max_d = -1.0`, `idx = -1`. -/
noncomputable def rdpScan (points : List Pt) (s e : ℕ) : ℝ × Int :=
  (List.range' (s + 1) (e - (s + 1))).foldl
    (fun acc i => if acc.1 < rdpD points s e i then (rdpD points s e i, (i : Int)) else acc)
    (-1, -1)

/-- The set of interior indices that the stack loop of `rdp_simplify` marks
`True` while processing the interval `(s, e)`: the split index together
with the marks of both sub-intervals, when the maximum distance exceeds
`epsilon`. -/
noncomputable def rdpKeep (points : List Pt) (epsilon : ℝ) (s e : ℕ) : Finset ℕ :=
  if h : epsilon < (rdpScan points s e).1 ∧ (rdpScan points s e).2 ≠ -1 then
    {(rdpScan points s e).2.toNat} ∪
      rdpKeep points epsilon s (rdpScan points s e).2.toNat ∪
      rdpKeep points epsilon (rdpScan points s e).2.toNat e
  else ∅
termination_by e - s
decreasing_by
  all_goals
    have hkey : ∀ (l : List ℕ) (acc : ℝ × Int),
        (l.foldl (fun acc i => if acc.1 < rdpD points s e i then
          (rdpD points s e i, (i : Int)) else acc) acc).2 = acc.2 ∨
        ∃ i ∈ l, (l.foldl (fun acc i => if acc.1 < rdpD points s e i then
          (rdpD points s e i, (i : Int)) else acc) acc).2 = (i : Int) := by
      intro l
      induction l with
      | nil => intro acc; exact Or.inl rfl
      | cons x xs ih =>
        intro acc
        rw [List.foldl_cons]
        by_cases hx : acc.1 < rdpD points s e x
        · rw [if_pos hx]
          rcases ih (rdpD points s e x, (x : Int)) with hh | ⟨i, hi, hh⟩
          · exact Or.inr ⟨x, List.mem_cons_self _ _, hh⟩
          · exact Or.inr ⟨i, List.mem_cons_of_mem _ hi, hh⟩
        · rw [if_neg hx]
          rcases ih acc with hh | ⟨i, hi, hh⟩
          · exact Or.inl hh
          · exact Or.inr ⟨i, List.mem_cons_of_mem _ hi, hh⟩
    have hmem : (rdpScan points s e).2 = -1 ∨
        ∃ i ∈ List.range' (s + 1) (e - (s + 1)), (rdpScan points s e).2 = (i : Int) := by
      rw [rdpScan]
      exact hkey (List.range' (s + 1) (e - (s + 1))) (-1, -1)
    rcases hmem with hm | ⟨i, hi, heq⟩
    · exact absurd hm h.2
    · rw [List.mem_range'_1] at hi
      rw [heq, Int.toNat_ofNat]
      omega

/-- The stack loop of `rdp_simplify`: pop `(s, e)`, scan its interior, and
either split at the maximising index (marking it kept and pushing the two
sub-intervals, the right one on top) or drop the interval. -/
noncomputable def rdpLoop (points : List Pt) (epsilon : ℝ) :
    List (ℕ × ℕ) → List Bool → List Bool
  | [], keep => keep
  | (s, e) :: rest, keep =>
    if h : epsilon < (rdpScan points s e).1 ∧ (rdpScan points s e).2 ≠ -1 then
      rdpLoop points epsilon
        (((rdpScan points s e).2.toNat, e) :: (s, (rdpScan points s e).2.toNat) :: rest)
        (keep.set (rdpScan points s e).2.toNat true)
    else rdpLoop points epsilon rest keep
termination_by stack _ => 2 * stackMeasure stack + stack.length
decreasing_by
  · have hkey : ∀ (l : List ℕ) (acc : ℝ × Int),
        (l.foldl (fun acc i => if acc.1 < rdpD points s e i then
          (rdpD points s e i, (i : Int)) else acc) acc).2 = acc.2 ∨
        ∃ i ∈ l, (l.foldl (fun acc i => if acc.1 < rdpD points s e i then
          (rdpD points s e i, (i : Int)) else acc) acc).2 = (i : Int) := by
      intro l
      induction l with
      | nil => intro acc; exact Or.inl rfl
      | cons x xs ih =>
        intro acc
        rw [List.foldl_cons]
        by_cases hx : acc.1 < rdpD points s e x
        · rw [if_pos hx]
          rcases ih (rdpD points s e x, (x : Int)) with hh | ⟨i, hi, hh⟩
          · exact Or.inr ⟨x, List.mem_cons_self _ _, hh⟩
          · exact Or.inr ⟨i, List.mem_cons_of_mem _ hi, hh⟩
        · rw [if_neg hx]
          rcases ih acc with hh | ⟨i, hi, hh⟩
          · exact Or.inl hh
          · exact Or.inr ⟨i, List.mem_cons_of_mem _ hi, hh⟩
    have hmem : (rdpScan points s e).2 = -1 ∨
        ∃ i ∈ List.range' (s + 1) (e - (s + 1)), (rdpScan points s e).2 = (i : Int) := by
      rw [rdpScan]
      exact hkey (List.range' (s + 1) (e - (s + 1))) (-1, -1)
    rcases hmem with hm | ⟨i, hi, heq⟩
    · exact absurd hm h.2
    · rw [List.mem_range'_1] at hi
      rw [heq, Int.toNat_ofNat]
      simp only [stackMeasure, List.foldr_cons, List.length_cons]
      omega
  · simp only [stackMeasure, List.foldr_cons, List.length_cons]
    omega

/-- The list comprehension `[pt for pt, k in zip(points, keep) if k]`. -/
def maskFilter {α : Type} (ps : List α) (ks : List Bool) : List α :=
  ((ps.zip ks).filter (fun pk => pk.2)).map (·.1)

/-- The final keep array of `rdp_simplify`: `keep = [False] * n`,
`keep[0] = keep[-1] = True`, then the stack loop from `[(0, n - 1)]`. -/
noncomputable def rdpKeepArray (points : List Pt) (epsilon : ℝ) : List Bool :=
  rdpLoop points epsilon [(0, points.length - 1)]
    (((List.replicate points.length false).set 0 true).set (points.length - 1) true)

/-- Mirror of `rdp_simplify` of `canvas_gv.py` (the iterative
Douglas-Peucker simplification): an input with at most 2 points is returned
as an unchanged copy, otherwise the points marked by the stack loop are
kept. -/
noncomputable def rdp_simplify (points : List Pt) (epsilon : ℝ) : List Pt :=
  if points.length ≤ 2 then points
  else maskFilter points (rdpKeepArray points epsilon)

/-- The increasing list of indices kept by `rdp_simplify` (endpoints plus
the marks of the stack loop). -/
noncomputable def rdpKept (points : List Pt) (epsilon : ℝ) : List ℕ :=
  (List.range points.length).filter (fun j => (rdpKeepArray points epsilon).getD j false)

/-! ### Supporting lemmas about the rating engine -/

/-- On a nonempty crack list, `compute_metrics` takes its main branch and
produces the record of filtered/counted quantities of `rating.py`. -/
theorem compute_metrics_of_ne_nil (cracks : List Crack) (h : cracks ≠ []) :
    compute_metrics cracks =
      { num_cracks := cracks.length,
        total_pct := (internalPcts cracks ++ externalPcts cracks).sum,
        internal_pct := internalPcts cracks,
        external_pct := externalPcts cracks,
        has_split := cracks.any (fun c => c.1 == "Split"),
        num_lt25 := (internalPcts cracks ++ externalPcts cracks).countP (fun p => decide (p < 25)),
        num_lt50 := (internalPcts cracks ++ externalPcts cracks).countP (fun p => decide (p < 50)),
        all_ext_lt10 := (externalPcts cracks).all (fun p => decide (p < 10)),
        all_ext_lt25 := (externalPcts cracks).all (fun p => decide (p < 25)),
        all_ext_lt50 := (externalPcts cracks).all (fun p => decide (p < 50)),
        internal_50_80_count := (internalPcts cracks).countP (fun p => decide (50 ≤ p ∧ p ≤ 80)),
        internal_above_80 := (internalPcts cracks).countP (fun p => decide (80 < p)),
        internal_above_50 := (internalPcts cracks).countP (fun p => decide (50 < p)),
        has_three_internal_above_50 :=
          3 ≤ (internalPcts cracks).countP (fun p => decide (50 < p)) } := by
  unfold compute_metrics
  rw [if_neg (by simpa using h)]

/-- Unfolding the cascade when a split is present. -/
theorem assign_rating_from_metrics_eq_five (m : Metrics)
    (h0 : m.num_cracks ≠ 0) (h5 : m.has_split = true) :
    assign_rating_from_metrics m = 5 := by
  rw [assign_rating_from_metrics, if_neg h0, if_pos h5]

/-- Unfolding the cascade down to the rating-4 trigger step. -/
theorem assign_rating_from_metrics_eq_four (m : Metrics)
    (h0 : m.num_cracks ≠ 0) (h5 : m.has_split = false)
    (h1 : ¬(m.total_pct ≤ 100 ∧ m.num_lt25 = m.num_cracks ∧ m.all_ext_lt10 = true))
    (h4 : 300 < m.total_pct ∨ 1 ≤ m.internal_above_80 ∨
      m.has_three_internal_above_50 = true ∨ ¬ m.all_ext_lt50 = true) :
    assign_rating_from_metrics m = 4 := by
  rw [assign_rating_from_metrics, if_neg h0, if_neg (by simp [h5]), if_neg h1, if_pos h4]

/-- The cascade on a nonempty crack set only returns the five nonzero
ratings. -/
theorem assign_rating_from_metrics_bounds (m : Metrics) (h0 : m.num_cracks ≠ 0) :
    1 ≤ assign_rating_from_metrics m ∧ assign_rating_from_metrics m ≤ 5 := by
  rw [assign_rating_from_metrics, if_neg h0]
  split_ifs <;> omega

/-- Two disjoint Boolean filters of a list together keep at most the whole
list (used to compare the internal+external count with the crack count). -/
theorem filter_disjoint_length {α : Type} (p q : α → Bool) (l : List α)
    (hdisj : ∀ a, ¬(p a = true ∧ q a = true)) :
    (l.filter p).length + (l.filter q).length ≤ l.length := by
  induction l with
  | nil => simp
  | cons a l ih =>
    cases hpa : p a <;> cases hqa : q a <;>
      simp only [List.filter_cons, hpa, hqa, if_true, if_false, Bool.false_eq_true,
        List.length_cons] <;>
      first
        | omega
        | exact absurd ⟨hpa, hqa⟩ (hdisj a)

/-- The internal and external percentage lists together are never longer
than the crack list itself. -/
theorem internal_external_length_le (cracks : List Crack) :
    (internalPcts cracks).length + (externalPcts cracks).length ≤ cracks.length := by
  have := filter_disjoint_length (fun c : Crack => c.1 == "Internal")
    (fun c : Crack => c.1 == "External") cracks (by
      rintro a ⟨h1, h2⟩
      rw [beq_iff_eq] at h1 h2
      rw [h1] at h2
      exact absurd h2 (by decide))
  simpa [internalPcts, externalPcts] using this

/-! ### Claim theorems for the rating engine -/

/-- C1. For every nonempty crack list containing at least one crack of type
`Split`, `assign_rating` returns rating 5 with verdict Fail regardless of
the types and lengths of all other cracks. -/
theorem split_override_law (cracks : List Crack) (hne : cracks ≠ [])
    (hsplit : ∃ c ∈ cracks, c.1 = "Split") :
    assign_rating cracks = (5, "Fail") := by
  have hm := compute_metrics_of_ne_nil cracks hne
  have h0 : (compute_metrics cracks).num_cracks ≠ 0 := by
    rw [hm]
    simpa using hne
  have h5 : (compute_metrics cracks).has_split = true := by
    rw [hm]
    show cracks.any (fun c => c.1 == "Split") = true
    rw [List.any_eq_true]
    obtain ⟨c, hc, hc1⟩ := hsplit
    exact ⟨c, hc, by simpa using hc1⟩
  rw [assign_rating, assign_iso23936_rating,
    assign_rating_from_metrics_eq_five _ h0 h5]
  rfl

/-- Witness for `split_override_law` at the crack list `[("Split", 10)]`. -/
theorem split_override_law_witness :
    ([(("Split" : String), (10 : ℚ))] ≠ []) ∧
      assign_rating [("Split", 10)] = (5, "Fail") :=
  ⟨by simp, split_override_law _ (by simp) ⟨("Split", 10), by simp, rfl⟩⟩

/-- C2. On a nonempty crack list with no split, any of the four rating-4
triggers (total > 300, an internal crack > 80, three internal cracks > 50,
an external crack > 50) forces `assign_rating` to return (4, Fail); in
particular the rating-1 test evaluated first can never fire together with a
trigger. -/
theorem rating4_triggers_force_fail (cracks : List Crack) (hne : cracks ≠ [])
    (hnosplit : ∀ c ∈ cracks, c.1 ≠ "Split")
    (htrig : 300 < (internalPcts cracks ++ externalPcts cracks).sum ∨
      (∃ p ∈ internalPcts cracks, 80 < p) ∨
      3 ≤ (internalPcts cracks).countP (fun p => decide (50 < p)) ∨
      (∃ p ∈ externalPcts cracks, 50 < p)) :
    assign_rating cracks = (4, "Fail") := by
  have hm := compute_metrics_of_ne_nil cracks hne
  have h0 : (compute_metrics cracks).num_cracks ≠ 0 := by
    rw [hm]
    simpa using hne
  have h5 : (compute_metrics cracks).has_split = false := by
    rw [hm]
    show cracks.any (fun c => c.1 == "Split") = false
    rw [List.any_eq_false]
    intro c hc
    simpa using hnosplit c hc
  have hR1 : ¬((compute_metrics cracks).total_pct ≤ 100 ∧
      (compute_metrics cracks).num_lt25 = (compute_metrics cracks).num_cracks ∧
      (compute_metrics cracks).all_ext_lt10 = true) := by
    rw [hm]
    rintro ⟨h100, hcnt, -⟩
    have hcnt' : (internalPcts cracks ++ externalPcts cracks).countP
        (fun p => decide (p < 25)) = cracks.length := hcnt
    have hle : (internalPcts cracks ++ externalPcts cracks).countP
        (fun p => decide (p < 25)) ≤
        (internalPcts cracks ++ externalPcts cracks).length :=
      List.countP_le_length _
    have hlen2 : (internalPcts cracks ++ externalPcts cracks).length ≤ cracks.length := by
      simpa [List.length_append] using internal_external_length_le cracks
    have hall : ∀ p ∈ internalPcts cracks ++ externalPcts cracks, p < 25 := by
      have heq : (internalPcts cracks ++ externalPcts cracks).countP
          (fun p => decide (p < 25)) =
          (internalPcts cracks ++ externalPcts cracks).length := by omega
      intro p hp
      simpa using List.countP_eq_length.mp heq p hp
    rcases htrig with h | ⟨p, hp, h80⟩ | h3 | ⟨p, hp, h50⟩
    · exact absurd h100 (by linarith)
    · have := hall p (List.mem_append_left _ hp)
      linarith
    · have hpos : 0 < (internalPcts cracks).countP (fun p => decide (50 < p)) := by omega
      obtain ⟨p, hp, hdec⟩ := List.countP_pos_iff.mp hpos
      have h50 : (50 : ℚ) < p := by simpa using hdec
      have := hall p (List.mem_append_left _ hp)
      linarith
    · have := hall p (List.mem_append_right _ hp)
      linarith
  have hT : 300 < (compute_metrics cracks).total_pct ∨
      1 ≤ (compute_metrics cracks).internal_above_80 ∨
      (compute_metrics cracks).has_three_internal_above_50 = true ∨
      ¬ (compute_metrics cracks).all_ext_lt50 = true := by
    rw [hm]
    rcases htrig with h | ⟨p, hp, h80⟩ | h3 | ⟨p, hp, h50⟩
    · exact Or.inl h
    · refine Or.inr (Or.inl ?_)
      have hpos : 0 < (internalPcts cracks).countP (fun p => decide (80 < p)) :=
        List.countP_pos_iff.mpr ⟨p, hp, by simpa using h80⟩
      show 1 ≤ (internalPcts cracks).countP (fun p => decide (80 < p))
      omega
    · refine Or.inr (Or.inr (Or.inl ?_))
      show decide (3 ≤ (internalPcts cracks).countP (fun p => decide (50 < p))) = true
      exact decide_eq_true h3
    · refine Or.inr (Or.inr (Or.inr ?_))
      show ¬ ((externalPcts cracks).all (fun p => decide (p < 50)) = true)
      rw [List.all_eq_true]
      push_neg
      refine ⟨p, hp, ?_⟩
      have hnl : ¬ (p < 50) := not_lt.mpr (le_of_lt h50)
      simpa using hnl
  rw [assign_rating, assign_iso23936_rating,
    assign_rating_from_metrics_eq_four _ h0 h5 hR1 hT]
  rfl

/-- Witness for `rating4_triggers_force_fail` at the crack list
`[("Internal", 81)]`. -/
theorem rating4_triggers_force_fail_witness :
    (∀ c ∈ [(("Internal" : String), (81 : ℚ))], c.1 ≠ "Split") ∧
      assign_rating [("Internal", 81)] = (4, "Fail") := by
  refine ⟨by decide, rating4_triggers_force_fail _ (by simp) (by decide)
    (Or.inr (Or.inl ⟨81, ?_, by norm_num⟩))⟩
  simp [internalPcts]

/-- C3. Boundary semantics at exactly 50 and 80 percent: two internal
cracks at exactly 80 land in the inclusive [50, 80] bucket and rate 3
(Pass); three internal cracks at exactly 50 fire no rating-4 trigger and
no strict rating-2/3 check and fall through to the default 4 (Fail). -/
theorem boundary_semantics_50_80 :
    assign_rating [("Internal", 80), ("Internal", 80)] = (3, "Pass") ∧
      assign_rating [("Internal", 50), ("Internal", 50), ("Internal", 50)] = (4, "Fail") := by
  constructor
  · rw [assign_rating, assign_iso23936_rating, compute_metrics_of_ne_nil _ (by simp)]
    rw [assign_rating_from_metrics]
    simp only [internalPcts, externalPcts, List.filter_cons, List.filter_nil, List.map_cons,
      List.map_nil, List.countP_cons, List.countP_nil, List.all_cons, List.all_nil,
      List.append_nil, List.nil_append, List.sum_cons, List.sum_nil, List.length_cons,
      List.length_nil, String.reduceEq, String.reduceBEq, reduceIte]
    norm_num [verdict]
    decide
  · rw [assign_rating, assign_iso23936_rating, compute_metrics_of_ne_nil _ (by simp)]
    rw [assign_rating_from_metrics]
    simp only [internalPcts, externalPcts, List.filter_cons, List.filter_nil, List.map_cons,
      List.map_nil, List.countP_cons, List.countP_nil, List.all_cons, List.all_nil,
      List.append_nil, List.nil_append, List.sum_cons, List.sum_nil, List.length_cons,
      List.length_nil, String.reduceEq, String.reduceBEq, reduceIte]
    norm_num [verdict]
    decide

/-- C4. The session-store serialize/deserialize cycle is the identity on
well-formed crack pairs, so the assigned rating is unchanged by a
round trip through the JSON form. -/
theorem rating_roundtrip_serialization (cracks : List Crack)
    (hwf : ∀ c ∈ cracks, c.1 = "Internal" ∨ c.1 = "External" ∨ c.1 = "Split") :
    cracks_from_json (cracks_to_json cracks) = cracks ∧
      assign_rating (cracks_from_json (cracks_to_json cracks)) = assign_rating cracks := by
  have hid : cracks_from_json (cracks_to_json cracks) = cracks := by
    simp [cracks_from_json, cracks_to_json]
  exact ⟨hid, by rw [hid]⟩

/-- Witness for `rating_roundtrip_serialization` at the crack list
`[("Internal", 20), ("Split", 30)]`. -/
theorem rating_roundtrip_serialization_witness :
    cracks_from_json (cracks_to_json [("Internal", 20), ("Split", 30)]) =
        [(("Internal" : String), (20 : ℚ)), ("Split", 30)] ∧
      assign_rating (cracks_from_json (cracks_to_json [("Internal", 20), ("Split", 30)])) =
        assign_rating [("Internal", 20), ("Split", 30)] :=
  rating_roundtrip_serialization [("Internal", 20), ("Split", 30)] (by decide)

/-- C10. `assign_iso23936_rating` returns 0 exactly on the empty crack
list; every nonempty list (whatever its types and percentages, zeros
included) is rated in the range 1 to 5. -/
theorem rating_zero_iff_empty (cracks : List Crack) :
    (assign_iso23936_rating cracks = 0 ↔ cracks = []) ∧
      (cracks ≠ [] →
        1 ≤ assign_iso23936_rating cracks ∧ assign_iso23936_rating cracks ≤ 5) := by
  rcases eq_or_ne cracks [] with h | h
  · subst h
    have h0 : assign_iso23936_rating ([] : List Crack) = 0 := by
      rw [assign_iso23936_rating, compute_metrics, assign_rating_from_metrics]
      simp
    refine ⟨by simp [h0], by tauto⟩
  · have h0 : (compute_metrics cracks).num_cracks ≠ 0 := by
      rw [compute_metrics_of_ne_nil cracks h]
      simpa using h
    have hb := assign_rating_from_metrics_bounds (compute_metrics cracks) h0
    rw [assign_iso23936_rating] at *
    exact ⟨⟨fun hz => absurd hz (by omega), fun he => absurd he h⟩, fun _ => hb⟩

/-- Witness for `rating_zero_iff_empty` at the all-zero nonempty list
`[("Internal", 0)]`. -/
theorem rating_zero_iff_empty_witness :
    1 ≤ assign_iso23936_rating [("Internal", 0)] ∧
      assign_iso23936_rating [("Internal", 0)] ≤ 5 :=
  (rating_zero_iff_empty [("Internal", 0)]).2 (by simp)

/-! ### Claim theorems for the geometry -/

/-- A fold of a running minimum either keeps its accumulator (everything is
at least it) or returns a minimal element of the list. -/
theorem foldl_min_spec {α : Type} (g : α → EReal) (l : List α) :
    ∀ acc : EReal,
      (l.foldl (fun b x => min b (g x)) acc = acc ∧ ∀ x ∈ l, acc ≤ g x) ∨
      (∃ a ∈ l, l.foldl (fun b x => min b (g x)) acc = g a ∧ g a ≤ acc ∧
        ∀ x ∈ l, g a ≤ g x) := by
  induction l with
  | nil => intro acc; exact Or.inl ⟨rfl, by simp⟩
  | cons x xs ih =>
    intro acc
    rcases le_or_lt acc (g x) with hax | hax
    · have hacc : min acc (g x) = acc := min_eq_left hax
      rcases ih acc with ⟨hres, hall⟩ | ⟨a, ha, hres, hle, hall⟩
      · refine Or.inl ⟨?_, ?_⟩
        · simpa [hacc] using hres
        · intro y hy
          rcases List.mem_cons.mp hy with rfl | hy
          · exact hax
          · exact hall y hy
      · refine Or.inr ⟨a, List.mem_cons_of_mem _ ha, ?_, hle, ?_⟩
        · simpa [hacc] using hres
        · intro y hy
          rcases List.mem_cons.mp hy with rfl | hy
          · exact le_trans hle hax
          · exact hall y hy
    · have hacc : min acc (g x) = g x := min_eq_right (le_of_lt hax)
      rcases ih (g x) with ⟨hres, hall⟩ | ⟨a, ha, hres, hle, hall⟩
      · refine Or.inr ⟨x, List.mem_cons_self _ _, ?_, le_of_lt hax, ?_⟩
        · simpa [hacc] using hres
        · intro y hy
          rcases List.mem_cons.mp hy with rfl | hy
          · exact le_refl _
          · exact hall y hy
      · refine Or.inr ⟨a, List.mem_cons_of_mem _ ha, ?_, le_trans hle (le_of_lt hax), ?_⟩
        · simpa [hacc] using hres
        · intro y hy
          rcases List.mem_cons.mp hy with rfl | hy
          · exact hle
          · exact hall y hy

/-- C9 counterexample. On the single-point polyline `[(0, 0)]` the code
does not return `+∞`: the closed segment list contains the degenerate
segment `((0,0), (0,0))`, so the result is the finite distance to that
point. -/
theorem dist_to_polyline_single_point_not_top :
    dist_to_polyline (3, 4) [(0, 0)] ≠ ⊤ := by
  have h : dist_to_polyline (3, 4) [(0, 0)] =
      ((seg_dist (3, 4) (0, 0) (0, 0) : ℝ) : EReal) := by
    rw [dist_to_polyline]
    simp only [List.drop, List.take, List.nil_append, List.zip_cons_cons, List.zip_nil_right,
      List.foldl_cons, List.foldl_nil]
    exact min_eq_right le_top
  rw [h]
  exact EReal.coe_ne_top _

/-- C9, amended. `_dist_to_polyline` returns `+∞` on the empty polyline;
on a single-point polyline it returns the distance to that point (not
`+∞`); on polylines of length at least 2 it returns the minimum segment
distance over the closed segment list. -/
theorem dist_to_polyline_spec (pt q : Pt) (poly : List Pt) :
    dist_to_polyline pt [] = ⊤ ∧
    dist_to_polyline pt [q] = ((hypot (pt.1 - q.1) (pt.2 - q.2) : ℝ) : EReal) ∧
    (2 ≤ poly.length →
      ∃ ab ∈ poly.zip (poly.drop 1 ++ poly.take 1),
        dist_to_polyline pt poly = ((seg_dist pt ab.1 ab.2 : ℝ) : EReal) ∧
        ∀ cd ∈ poly.zip (poly.drop 1 ++ poly.take 1),
          seg_dist pt ab.1 ab.2 ≤ seg_dist pt cd.1 cd.2) := by
  refine ⟨rfl, ?_, ?_⟩
  · have h : dist_to_polyline pt [q] = ((seg_dist pt q q : ℝ) : EReal) := by
      rw [dist_to_polyline]
      simp only [List.drop, List.take, List.nil_append, List.zip_cons_cons, List.zip_nil_right,
        List.foldl_cons, List.foldl_nil]
      exact min_eq_right le_top
    rw [h, seg_dist]
    simp
  · intro hlen
    have hne : poly.zip (poly.drop 1 ++ poly.take 1) ≠ [] := by
      have hlz : (poly.zip (poly.drop 1 ++ poly.take 1)).length = poly.length := by
        rw [List.length_zip, List.length_append, List.length_drop, List.length_take]
        omega
      intro h
      rw [h] at hlz
      simp at hlz
      omega
    rcases foldl_min_spec (fun ab : Pt × Pt => ((seg_dist pt ab.1 ab.2 : ℝ) : EReal))
        (poly.zip (poly.drop 1 ++ poly.take 1)) ⊤ with ⟨hres, hall⟩ | ⟨a, ha, hres, -, hall⟩
    · obtain ⟨ab, hab⟩ := List.exists_mem_of_ne_nil _ hne
      have := top_le_iff.mp (hall ab hab)
      exact absurd this (EReal.coe_ne_top _)
    · refine ⟨a, ha, hres, fun cd hcd => ?_⟩
      exact_mod_cast hall cd hcd

/-- Witness for `dist_to_polyline_spec` at `pt = (0,0)`,
`poly = [(0,0), (1,0)]`. -/
theorem dist_to_polyline_spec_witness :
    ∃ ab ∈ ([(0, 0), (1, 0)] : List Pt).zip
        (([(0, 0), (1, 0)] : List Pt).drop 1 ++ ([(0, 0), (1, 0)] : List Pt).take 1),
      dist_to_polyline (0, 0) [(0, 0), (1, 0)] = ((seg_dist (0, 0) ab.1 ab.2 : ℝ) : EReal) ∧
      ∀ cd ∈ ([(0, 0), (1, 0)] : List Pt).zip
          (([(0, 0), (1, 0)] : List Pt).drop 1 ++ ([(0, 0), (1, 0)] : List Pt).take 1),
        seg_dist (0, 0) ab.1 ab.2 ≤ seg_dist (0, 0) cd.1 cd.2 :=
  (dist_to_polyline_spec (0, 0) (0, 0) [(0, 0), (1, 0)]).2.2 (by simp)

/-- C7. With no usable perimeter (none stored, or fewer than 3 spline
points), both endpoint-proximity tests report false, so every crack
polyline is classified Internal. -/
theorem classify_no_perimeter_internal (perimeter : Option PerimeterData)
    (crack_img : List Pt)
    (hundef : ∀ per, perimeter = some per → per.spline_points.length < 3) :
    classify_crack_img perimeter crack_img = "Internal" := by
  have hep : ∀ p : Pt, endpoint_on_perimeter perimeter p 3 = false := by
    intro p
    cases hper : perimeter with
    | none => rfl
    | some per =>
      have hlt := hundef per hper
      simp [endpoint_on_perimeter, hlt]
  by_cases h : crack_img.isEmpty
  · simp [classify_crack_img, h]
  · simp [classify_crack_img, h, hep]

/-- Witness for `classify_no_perimeter_internal` with no perimeter stored
and the crack `[(5, 5), (9, 2)]`. -/
theorem classify_no_perimeter_internal_witness :
    classify_crack_img none [((5 : ℝ), (5 : ℝ)), (9, 2)] = "Internal" :=
  classify_no_perimeter_internal none [(5, 5), (9, 2)] (fun per h => by cases h)

/-- C8. The cached CSD is strictly positive in the initial state and after
every perimeter operation; whenever the closed-curve length is positive the
stored CSD is `length / π`, and a zero length falls back to the default
`1.0` instead of dividing by zero. -/
theorem csd_always_positive :
    0 < initPerimState.csd_px ∧
    (∀ ctrl spline st, 0 < (set_perimeter ctrl spline st).csd_px) ∧
    (∀ st, 0 < (clear_perimeter_loop st).csd_px) ∧
    (∀ spline, 0 < closed_length spline →
      csd_of_spline spline = closed_length spline / Real.pi) ∧
    (∀ spline, closed_length spline = 0 → csd_of_spline spline = 1) := by
  have hpos : ∀ spline, 0 < csd_of_spline spline := by
    intro spline
    rw [csd_of_spline]
    split_ifs with h
    · exact div_pos h Real.pi_pos
    · norm_num
  refine ⟨by norm_num [initPerimState], fun ctrl spline st => hpos spline,
    fun st => by norm_num [clear_perimeter_loop], fun spline h => ?_, fun spline h => ?_⟩
  · rw [csd_of_spline, if_pos h]
  · rw [csd_of_spline, if_neg (by rw [h]; exact lt_irrefl 0)]

/-- Witness for `csd_always_positive`: the degenerate one-point spline has
closed length 0 and CSD defaulting to 1. -/
theorem csd_always_positive_witness :
    csd_of_spline [((0 : ℝ), (0 : ℝ))] = 1 :=
  csd_always_positive.2.2.2.2 [(0, 0)] (by
    rw [closed_length]
    simp [hypot])


/-- Zero angle on the positive x-axis. -/
theorem atan2_zero_of_pos_x (x : ℝ) (hx : 0 < x) : atan2 0 x = 0 := by
  rw [atan2, if_pos hx]
  simp

/-- Positive angle in the (closed) upper-left quadrant. -/
theorem atan2_pos_of_neg_x_nonneg_y (y x : ℝ) (hx : x < 0) (hy : 0 ≤ y) :
    0 < atan2 y x := by
  rw [atan2, if_neg (by linarith), if_pos ⟨hx, hy⟩]
  have h1 := Real.neg_pi_div_two_lt_arctan (y / x)
  have h2 := Real.pi_pos
  linarith

/-- Negative angle in the (open) lower-left quadrant. -/
theorem atan2_neg_of_neg_x_neg_y (y x : ℝ) (hx : x < 0) (hy : y < 0) :
    atan2 y x < 0 := by
  rw [atan2, if_neg (by linarith), if_neg (by rintro ⟨-, h0⟩; linarith),
    if_pos ⟨hx, hy⟩]
  have h1 := Real.arctan_lt_pi_div_two (y / x)
  have h2 := Real.pi_pos
  linarith

/-- The centroid key function only depends on the multiset of points, so
it is invariant under permutation of `pts`. -/
theorem centroid_key_perm (pts pts' : List Pt) (hperm : pts.Perm pts') :
    centroid_key pts = centroid_key pts' := by
  funext p
  rw [centroid_key, centroid_key, (hperm.map (·.1)).sum_eq, (hperm.map (·.2)).sum_eq,
    hperm.length_eq]

/-- Sorting two permutations of the same point set by pairwise-distinct
centroid keys yields the same list. -/
theorem clockwise_sorted_perm_eq (pts pts' : List Pt) (hperm : pts.Perm pts')
    (hne : pts ≠ [])
    (hkeys : pts.Pairwise (fun p q => centroid_key pts p ≠ centroid_key pts q)) :
    clockwise_sorted pts = clockwise_sorted pts' := by
  have hne' : pts' ≠ [] := fun h => hne (List.Perm.eq_nil (h ▸ hperm))
  have hkey : centroid_key pts' = centroid_key pts := (centroid_key_perm pts pts' hperm).symm
  rw [clockwise_sorted, clockwise_sorted, if_neg hne, if_neg hne', hkey]
  set r : Pt → Pt → Prop := fun p q => centroid_key pts p ≤ centroid_key pts q with hr
  set rs : Pt → Pt → Prop := fun p q => centroid_key pts p < centroid_key pts q with hrs
  haveI : IsTotal Pt r := ⟨fun a b => le_total _ _⟩
  haveI : IsTrans Pt r := ⟨fun a b c => le_trans⟩
  haveI : IsAntisymm Pt rs := ⟨fun a b h1 h2 => absurd h2 (not_lt_of_lt h1)⟩
  have hsorted1 : (List.insertionSort r pts).Sorted r := List.sorted_insertionSort r pts
  have hsorted2 : (List.insertionSort r pts').Sorted r := List.sorted_insertionSort r pts'
  have hperm1 : (List.insertionSort r pts).Perm pts := List.perm_insertionSort r pts
  have hperm2 : (List.insertionSort r pts').Perm pts' := List.perm_insertionSort r pts'
  have hk1 : (List.insertionSort r pts).Pairwise
      (fun p q => centroid_key pts p ≠ centroid_key pts q) :=
    (hperm1.pairwise_iff (fun h => Ne.symm h)).mpr hkeys
  have hk2 : (List.insertionSort r pts').Pairwise
      (fun p q => centroid_key pts p ≠ centroid_key pts q) :=
    (hperm2.pairwise_iff (fun h => Ne.symm h)).mpr ((hperm.pairwise_iff (fun h => Ne.symm h)).mp hkeys)
  have hs1 : (List.insertionSort r pts).Sorted rs :=
    (hsorted1.and hk1).imp (fun h => lt_of_le_of_ne h.1 h.2)
  have hs2 : (List.insertionSort r pts').Sorted rs :=
    (hsorted2.and hk2).imp (fun h => lt_of_le_of_ne h.1 h.2)
  exact List.eq_of_perm_of_sorted (hperm1.trans (hperm.trans hperm2.symm)) hs1 hs2

/-- C6, amended. Perimeter generation is invariant under permutation of the
control points provided the centroid polar angles of the points are
pairwise distinct (so the sort order is unique); the control sequence, the
curve and the csd all coincide. -/
theorem perimeter_perm_invariant (fit : List Pt → Option (List Pt))
    (pts pts' : List Pt) (hperm : pts.Perm pts') (h3 : 3 ≤ pts.length)
    (hkeys : pts.Pairwise (fun p q => centroid_key pts p ≠ centroid_key pts q)) :
    generate_perimeter_loop fit pts = generate_perimeter_loop fit pts' := by
  have hne : pts ≠ [] := by
    intro h
    rw [h] at h3
    simp at h3
  have hsort := clockwise_sorted_perm_eq pts pts' hperm hne hkeys
  rw [generate_perimeter_loop, generate_perimeter_loop, ← hperm.length_eq, hsort]


/-- A square-sum bound gives a lower bound on `hypot`. -/
theorem one_le_hypot_of (a b : ℝ) (h : 1 ≤ a * a + b * b) : 1 ≤ hypot a b := by
  rw [hypot, show (1 : ℝ) = Real.sqrt 1 by simp]
  exact Real.sqrt_le_sqrt h

/-- C6 counterexample. The two input orders `[A, B, C, D]` and
`[B, A, C, D]` of the same four control points, where `A = (1,0)` and
`B = (2,0)` have the same polar angle around the centroid `(3/4, 0)`,
produce different perimeters: Python's sort is stable, so the tie between
`A` and `B` is broken by input order. -/
theorem perimeter_not_permutation_invariant :
    generate_perimeter_loop (fun _ => none)
        [((1:ℝ),(0:ℝ)), ((2:ℝ),(0:ℝ)), ((0:ℝ),(1:ℝ)), ((0:ℝ),(-1:ℝ))] ≠
      generate_perimeter_loop (fun _ => none)
        [((2:ℝ),(0:ℝ)), ((1:ℝ),(0:ℝ)), ((0:ℝ),(1:ℝ)), ((0:ℝ),(-1:ℝ))] := by
  have hA : centroid_key
      [((1:ℝ),(0:ℝ)), ((2:ℝ),(0:ℝ)), ((0:ℝ),(1:ℝ)), ((0:ℝ),(-1:ℝ))] ((1:ℝ),(0:ℝ)) = 0 := by
    rw [centroid_key]
    norm_num
    exact atan2_zero_of_pos_x _ (by norm_num)
  have hB : centroid_key
      [((1:ℝ),(0:ℝ)), ((2:ℝ),(0:ℝ)), ((0:ℝ),(1:ℝ)), ((0:ℝ),(-1:ℝ))] ((2:ℝ),(0:ℝ)) = 0 := by
    rw [centroid_key]
    norm_num
    exact atan2_zero_of_pos_x _ (by norm_num)
  have hC : 0 < centroid_key
      [((1:ℝ),(0:ℝ)), ((2:ℝ),(0:ℝ)), ((0:ℝ),(1:ℝ)), ((0:ℝ),(-1:ℝ))] ((0:ℝ),(1:ℝ)) := by
    rw [centroid_key]
    exact atan2_pos_of_neg_x_nonneg_y _ _ (by norm_num) (by norm_num)
  have hD : centroid_key
      [((1:ℝ),(0:ℝ)), ((2:ℝ),(0:ℝ)), ((0:ℝ),(1:ℝ)), ((0:ℝ),(-1:ℝ))] ((0:ℝ),(-1:ℝ)) < 0 := by
    rw [centroid_key]
    exact atan2_neg_of_neg_x_neg_y _ _ (by norm_num) (by norm_num)
  have c1 : ¬(centroid_key [((1:ℝ),(0:ℝ)), ((2:ℝ),(0:ℝ)), ((0:ℝ),(1:ℝ)), ((0:ℝ),(-1:ℝ))] ((0:ℝ),(1:ℝ)) ≤
      centroid_key [((1:ℝ),(0:ℝ)), ((2:ℝ),(0:ℝ)), ((0:ℝ),(1:ℝ)), ((0:ℝ),(-1:ℝ))] ((0:ℝ),(-1:ℝ))) :=
    not_le.mpr (lt_trans hD hC)
  have c2 : ¬(centroid_key [((1:ℝ),(0:ℝ)), ((2:ℝ),(0:ℝ)), ((0:ℝ),(1:ℝ)), ((0:ℝ),(-1:ℝ))] ((1:ℝ),(0:ℝ)) ≤
      centroid_key [((1:ℝ),(0:ℝ)), ((2:ℝ),(0:ℝ)), ((0:ℝ),(1:ℝ)), ((0:ℝ),(-1:ℝ))] ((0:ℝ),(-1:ℝ))) := by
    rw [hA]; exact not_le.mpr hD
  have c3 : ¬(centroid_key [((1:ℝ),(0:ℝ)), ((2:ℝ),(0:ℝ)), ((0:ℝ),(1:ℝ)), ((0:ℝ),(-1:ℝ))] ((2:ℝ),(0:ℝ)) ≤
      centroid_key [((1:ℝ),(0:ℝ)), ((2:ℝ),(0:ℝ)), ((0:ℝ),(1:ℝ)), ((0:ℝ),(-1:ℝ))] ((0:ℝ),(-1:ℝ))) := by
    rw [hB]; exact not_le.mpr hD
  have c4 : centroid_key [((1:ℝ),(0:ℝ)), ((2:ℝ),(0:ℝ)), ((0:ℝ),(1:ℝ)), ((0:ℝ),(-1:ℝ))] ((1:ℝ),(0:ℝ)) ≤
      centroid_key [((1:ℝ),(0:ℝ)), ((2:ℝ),(0:ℝ)), ((0:ℝ),(1:ℝ)), ((0:ℝ),(-1:ℝ))] ((0:ℝ),(1:ℝ)) := by
    rw [hA]; exact le_of_lt hC
  have c5 : centroid_key [((1:ℝ),(0:ℝ)), ((2:ℝ),(0:ℝ)), ((0:ℝ),(1:ℝ)), ((0:ℝ),(-1:ℝ))] ((2:ℝ),(0:ℝ)) ≤
      centroid_key [((1:ℝ),(0:ℝ)), ((2:ℝ),(0:ℝ)), ((0:ℝ),(1:ℝ)), ((0:ℝ),(-1:ℝ))] ((0:ℝ),(1:ℝ)) := by
    rw [hB]; exact le_of_lt hC
  have c6 : centroid_key [((1:ℝ),(0:ℝ)), ((2:ℝ),(0:ℝ)), ((0:ℝ),(1:ℝ)), ((0:ℝ),(-1:ℝ))] ((1:ℝ),(0:ℝ)) ≤
      centroid_key [((1:ℝ),(0:ℝ)), ((2:ℝ),(0:ℝ)), ((0:ℝ),(1:ℝ)), ((0:ℝ),(-1:ℝ))] ((2:ℝ),(0:ℝ)) := by
    rw [hA, hB]
  have c7 : centroid_key [((1:ℝ),(0:ℝ)), ((2:ℝ),(0:ℝ)), ((0:ℝ),(1:ℝ)), ((0:ℝ),(-1:ℝ))] ((2:ℝ),(0:ℝ)) ≤
      centroid_key [((1:ℝ),(0:ℝ)), ((2:ℝ),(0:ℝ)), ((0:ℝ),(1:ℝ)), ((0:ℝ),(-1:ℝ))] ((1:ℝ),(0:ℝ)) := by
    rw [hA, hB]
  have hperm : ([((1:ℝ),(0:ℝ)), ((2:ℝ),(0:ℝ)), ((0:ℝ),(1:ℝ)), ((0:ℝ),(-1:ℝ))] : List Pt).Perm
      [((2:ℝ),(0:ℝ)), ((1:ℝ),(0:ℝ)), ((0:ℝ),(1:ℝ)), ((0:ℝ),(-1:ℝ))] :=
    List.Perm.swap _ _ _
  have hsort1 : clockwise_sorted
        [((1:ℝ),(0:ℝ)), ((2:ℝ),(0:ℝ)), ((0:ℝ),(1:ℝ)), ((0:ℝ),(-1:ℝ))] =
      [((0:ℝ),(-1:ℝ)), ((1:ℝ),(0:ℝ)), ((2:ℝ),(0:ℝ)), ((0:ℝ),(1:ℝ))] := by
    rw [clockwise_sorted, if_neg (by simp)]
    simp only [List.insertionSort, List.orderedInsert, c1, c2, c3, c4, c5, c6,
      if_true, if_false, ite_true, ite_false]
  have hsort2 : clockwise_sorted
        [((2:ℝ),(0:ℝ)), ((1:ℝ),(0:ℝ)), ((0:ℝ),(1:ℝ)), ((0:ℝ),(-1:ℝ))] =
      [((0:ℝ),(-1:ℝ)), ((2:ℝ),(0:ℝ)), ((1:ℝ),(0:ℝ)), ((0:ℝ),(1:ℝ))] := by
    rw [clockwise_sorted, if_neg (by simp),
      centroid_key_perm _ _ hperm.symm]
    simp only [List.insertionSort, List.orderedInsert, c1, c2, c3, c4, c5, c7,
      if_true, if_false, ite_true, ite_false]
  have hdedup1 : perimeter_dedup
        [((0:ℝ),(-1:ℝ)), ((1:ℝ),(0:ℝ)), ((2:ℝ),(0:ℝ)), ((0:ℝ),(1:ℝ))] =
      [((0:ℝ),(-1:ℝ)), ((1:ℝ),(0:ℝ)), ((2:ℝ),(0:ℝ)), ((0:ℝ),(1:ℝ))] := by
    rw [perimeter_dedup]
    simp only [List.foldl_cons, List.foldl_nil, List.getLast?_nil, List.nil_append,
      List.getLast?_singleton]
    rw [if_pos (one_le_hypot_of _ _ (by norm_num))]
    simp only [List.cons_append, List.nil_append, List.getLast?_cons_cons,
      List.getLast?_singleton]
    rw [if_pos (one_le_hypot_of _ _ (by norm_num))]
    simp only [List.cons_append, List.nil_append, List.getLast?_cons_cons,
      List.getLast?_singleton]
    rw [if_pos (one_le_hypot_of _ _ (by norm_num))]
  have hdedup2 : perimeter_dedup
        [((0:ℝ),(-1:ℝ)), ((2:ℝ),(0:ℝ)), ((1:ℝ),(0:ℝ)), ((0:ℝ),(1:ℝ))] =
      [((0:ℝ),(-1:ℝ)), ((2:ℝ),(0:ℝ)), ((1:ℝ),(0:ℝ)), ((0:ℝ),(1:ℝ))] := by
    rw [perimeter_dedup]
    simp only [List.foldl_cons, List.foldl_nil, List.getLast?_nil, List.nil_append,
      List.getLast?_singleton]
    rw [if_pos (one_le_hypot_of _ _ (by norm_num))]
    simp only [List.cons_append, List.nil_append, List.getLast?_cons_cons,
      List.getLast?_singleton]
    rw [if_pos (one_le_hypot_of _ _ (by norm_num))]
    simp only [List.cons_append, List.nil_append, List.getLast?_cons_cons,
      List.getLast?_singleton]
    rw [if_pos (one_le_hypot_of _ _ (by norm_num))]
  have hclose : ¬(hypot ((0:ℝ) - 0) ((-1:ℝ) - 1) < 1 / 1000000) :=
    not_lt.mpr (le_trans (by norm_num) (one_le_hypot_of _ _ (by norm_num)))
  have e1 : generate_perimeter_loop (fun _ => none)
        [((1:ℝ),(0:ℝ)), ((2:ℝ),(0:ℝ)), ((0:ℝ),(1:ℝ)), ((0:ℝ),(-1:ℝ))] =
      some ([((0:ℝ),(-1:ℝ)), ((1:ℝ),(0:ℝ)), ((2:ℝ),(0:ℝ)), ((0:ℝ),(1:ℝ))],
        [((0:ℝ),(-1:ℝ)), ((1:ℝ),(0:ℝ)), ((2:ℝ),(0:ℝ)), ((0:ℝ),(1:ℝ))],
        csd_of_spline [((0:ℝ),(-1:ℝ)), ((1:ℝ),(0:ℝ)), ((2:ℝ),(0:ℝ)), ((0:ℝ),(1:ℝ))]) := by
    rw [generate_perimeter_loop, if_neg (by norm_num)]
    simp only [hsort1, hdedup1]
    rw [if_neg (by norm_num)]
    simp only [List.headD_cons, List.getLastD_eq_getLast?, List.getLast?_cons_cons,
      List.getLast?_singleton, Option.getD_some]
    rw [if_neg hclose]
    rw [if_neg (by norm_num)]
    rfl
  have e2 : generate_perimeter_loop (fun _ => none)
        [((2:ℝ),(0:ℝ)), ((1:ℝ),(0:ℝ)), ((0:ℝ),(1:ℝ)), ((0:ℝ),(-1:ℝ))] =
      some ([((0:ℝ),(-1:ℝ)), ((2:ℝ),(0:ℝ)), ((1:ℝ),(0:ℝ)), ((0:ℝ),(1:ℝ))],
        [((0:ℝ),(-1:ℝ)), ((2:ℝ),(0:ℝ)), ((1:ℝ),(0:ℝ)), ((0:ℝ),(1:ℝ))],
        csd_of_spline [((0:ℝ),(-1:ℝ)), ((2:ℝ),(0:ℝ)), ((1:ℝ),(0:ℝ)), ((0:ℝ),(1:ℝ))]) := by
    rw [generate_perimeter_loop, if_neg (by norm_num)]
    simp only [hsort2, hdedup2]
    rw [if_neg (by norm_num)]
    simp only [List.headD_cons, List.getLastD_eq_getLast?, List.getLast?_cons_cons,
      List.getLast?_singleton, Option.getD_some]
    rw [if_neg hclose]
    rw [if_neg (by norm_num)]
    rfl
  rw [e1, e2]
  intro h
  norm_num [Option.some.injEq, Prod.mk.injEq, List.cons.injEq] at h


/-- Witness for `perimeter_perm_invariant`: three points with pairwise
distinct centroid angles, in two input orders. -/
theorem perimeter_perm_invariant_witness :
    generate_perimeter_loop (fun _ => none)
        [((1:ℝ),(0:ℝ)), ((0:ℝ),(1:ℝ)), ((0:ℝ),(-1:ℝ))] =
      generate_perimeter_loop (fun _ => none)
        [((0:ℝ),(1:ℝ)), ((1:ℝ),(0:ℝ)), ((0:ℝ),(-1:ℝ))] := by
  refine perimeter_perm_invariant _ _ _ (List.Perm.swap _ _ _) (by norm_num) ?_
  have h1 : centroid_key [((1:ℝ),(0:ℝ)), ((0:ℝ),(1:ℝ)), ((0:ℝ),(-1:ℝ))] ((1:ℝ),(0:ℝ)) = 0 := by
    rw [centroid_key]
    norm_num
    exact atan2_zero_of_pos_x _ (by norm_num)
  have h2 : 0 < centroid_key [((1:ℝ),(0:ℝ)), ((0:ℝ),(1:ℝ)), ((0:ℝ),(-1:ℝ))] ((0:ℝ),(1:ℝ)) := by
    rw [centroid_key]
    exact atan2_pos_of_neg_x_nonneg_y _ _ (by norm_num) (by norm_num)
  have h3 : centroid_key [((1:ℝ),(0:ℝ)), ((0:ℝ),(1:ℝ)), ((0:ℝ),(-1:ℝ))] ((0:ℝ),(-1:ℝ)) < 0 := by
    rw [centroid_key]
    exact atan2_neg_of_neg_x_neg_y _ _ (by norm_num) (by norm_num)
  refine List.Pairwise.cons (fun q hq => ?_)
    (List.Pairwise.cons (fun q hq => ?_) (List.Pairwise.cons (fun q hq => by simp at hq)
      List.Pairwise.nil))
  · rcases List.mem_cons.mp hq with rfl | hq
    · rw [h1]
      exact ne_of_lt h2
    · rcases List.mem_cons.mp hq with rfl | hq
      · rw [h1]
        exact ne_of_gt h3
      · simp at hq
  · rcases List.mem_cons.mp hq with rfl | hq
    · exact ne_of_gt (lt_trans h3 h2)
    · simp at hq


/-- The running-maximum scan over a strictly increasing index list: either
no index beats the initial value, or the result is the first index
attaining the maximum. -/
theorem rdpScan_go (f : ℕ → ℝ) (l : List ℕ) (hl : l.Pairwise (· < ·)) :
    ∀ (v₀ : ℝ) (i₀ : Int),
      (l.foldl (fun acc i => if acc.1 < f i then (f i, (i : Int)) else acc) (v₀, i₀) = (v₀, i₀) ∧
        ∀ i ∈ l, f i ≤ v₀) ∨
      (∃ i ∈ l, l.foldl (fun acc i => if acc.1 < f i then (f i, (i : Int)) else acc) (v₀, i₀) =
          (f i, (i : Int)) ∧ v₀ < f i ∧ (∀ j ∈ l, f j ≤ f i) ∧ ∀ j ∈ l, j < i → f j < f i) := by
  induction l with
  | nil => intro v₀ i₀; exact Or.inl ⟨rfl, by simp⟩
  | cons x xs ih =>
    intro v₀ i₀
    rw [List.pairwise_cons] at hl
    rw [List.foldl_cons]
    by_cases hx : v₀ < f x
    · rw [if_pos hx]
      rcases ih hl.2 (f x) (x : Int) with ⟨hres, hall⟩ | ⟨i, hi, hres, hgt, hall, hfirst⟩
      · refine Or.inr ⟨x, List.mem_cons_self _ _, hres, hx, ?_, ?_⟩
        · intro j hj
          rcases List.mem_cons.mp hj with rfl | hj
          · exact le_refl _
          · exact hall j hj
        · intro j hj hjx
          rcases List.mem_cons.mp hj with rfl | hj
          · exact absurd hjx (lt_irrefl _)
          · exact absurd hjx (not_lt_of_lt (hl.1 j hj))
      · refine Or.inr ⟨i, List.mem_cons_of_mem _ hi, hres, lt_trans hx hgt, ?_, ?_⟩
        · intro j hj
          rcases List.mem_cons.mp hj with rfl | hj
          · exact le_of_lt hgt
          · exact hall j hj
        · intro j hj hji
          rcases List.mem_cons.mp hj with rfl | hj
          · exact hgt
          · exact hfirst j hj hji
    · rw [if_neg hx]
      rcases ih hl.2 v₀ i₀ with ⟨hres, hall⟩ | ⟨i, hi, hres, hgt, hall, hfirst⟩
      · refine Or.inl ⟨hres, ?_⟩
        intro j hj
        rcases List.mem_cons.mp hj with rfl | hj
        · exact not_lt.mp hx
        · exact hall j hj
      · refine Or.inr ⟨i, List.mem_cons_of_mem _ hi, hres, hgt, ?_, ?_⟩
        · intro j hj
          rcases List.mem_cons.mp hj with rfl | hj
          · exact le_trans (not_lt.mp hx) (le_of_lt hgt)
          · exact hall j hj
        · intro j hj hji
          rcases List.mem_cons.mp hj with rfl | hj
          · exact lt_of_le_of_lt (not_lt.mp hx) hgt
          · exact hfirst j hj hji

/-- Specification of the scan of `rdp_simplify` over the interior of
`(s, e)`: either nothing beats the initial `-1`, or the scan returns the
first index attaining the maximum interior distance, which is then
greater than `-1`. -/
theorem rdpScan_spec (points : List Pt) (s e : ℕ) :
    (rdpScan points s e = (-1, -1) ∧ ∀ i, s + 1 ≤ i → i < e → rdpD points s e i ≤ -1) ∨
    (∃ i, s + 1 ≤ i ∧ i < e ∧ rdpScan points s e = (rdpD points s e i, (i : Int)) ∧
      (-1 : ℝ) < rdpD points s e i ∧
      (∀ j, s + 1 ≤ j → j < e → rdpD points s e j ≤ rdpD points s e i) ∧
      (∀ j, s + 1 ≤ j → j < i → rdpD points s e j < rdpD points s e i)) := by
  have hmem : ∀ j, j ∈ List.range' (s + 1) (e - (s + 1)) ↔ s + 1 ≤ j ∧ j < e := by
    intro j
    rw [List.mem_range'_1]
    omega
  rcases rdpScan_go (rdpD points s e) (List.range' (s + 1) (e - (s + 1)))
      (List.pairwise_lt_range' _ _) (-1) (-1) with ⟨hres, hall⟩ | ⟨i, hi, hres, hgt, hall, hfirst⟩
  · refine Or.inl ⟨?_, ?_⟩
    · rw [rdpScan]
      exact hres
    · intro i h1 h2
      exact hall i ((hmem i).mpr ⟨h1, h2⟩)
  · rw [hmem] at hi
    refine Or.inr ⟨i, hi.1, hi.2, ?_, hgt, ?_, ?_⟩
    · rw [rdpScan]
      exact hres
    · intro j h1 h2
      exact hall j ((hmem j).mpr ⟨h1, h2⟩)
    · intro j h1 h2
      exact hfirst j ((hmem j).mpr ⟨h1, lt_trans h2 hi.2⟩) h2


/-- Unfolding `rdpKeep` when the interval does not split. -/
theorem rdpKeep_no_split (points : List Pt) (ε : ℝ) (s e : ℕ)
    (h : ¬(ε < (rdpScan points s e).1 ∧ (rdpScan points s e).2 ≠ -1)) :
    rdpKeep points ε s e = ∅ := by
  conv_lhs => rw [rdpKeep]
  rw [dif_neg h]

/-- Unfolding `rdpKeep` when the interval splits at index `i`. -/
theorem rdpKeep_split (points : List Pt) (ε : ℝ) (s e i : ℕ)
    (h : ε < (rdpScan points s e).1 ∧ (rdpScan points s e).2 ≠ -1)
    (hi : (rdpScan points s e).2 = (i : Int)) :
    rdpKeep points ε s e =
      {i} ∪ rdpKeep points ε s i ∪ rdpKeep points ε i e := by
  conv_lhs => rw [rdpKeep]
  rw [dif_pos h, hi, Int.toNat_ofNat]

/-- Every index kept while processing `(s, e)` lies strictly inside. -/
theorem rdpKeep_subset (points : List Pt) (ε : ℝ) :
    ∀ n s e, e - s ≤ n → rdpKeep points ε s e ⊆ Finset.Ioo s e := by
  intro n
  induction n with
  | zero =>
    intro s e hse
    have hempty : rdpKeep points ε s e = ∅ := by
      rcases rdpScan_spec points s e with ⟨hres, -⟩ | ⟨i, h1, h2, -, -, -, -⟩
      · refine rdpKeep_no_split points ε s e ?_
        rw [hres]
        rintro ⟨-, hne⟩
        exact hne rfl
      · omega
    rw [hempty]
    exact Finset.empty_subset _
  | succ n ih =>
    intro s e hse
    by_cases h : ε < (rdpScan points s e).1 ∧ (rdpScan points s e).2 ≠ -1
    · rcases rdpScan_spec points s e with ⟨hres, -⟩ | ⟨i, h1, h2, hres, -, -, -⟩
      · rw [hres] at h
        exact absurd rfl h.2
      · rw [rdpKeep_split points ε s e i h (by rw [hres])]
        refine Finset.union_subset (Finset.union_subset ?_ ?_) ?_
        · intro x hx
          rw [Finset.mem_singleton] at hx
          subst hx
          rw [Finset.mem_Ioo]
          omega
        · refine subset_trans (ih s i (by omega)) ?_
          intro x hx
          rw [Finset.mem_Ioo] at *
          omega
        · refine subset_trans (ih i e (by omega)) ?_
          intro x hx
          rw [Finset.mem_Ioo] at *
          omega
    · rw [rdpKeep_no_split points ε s e h]
      exact Finset.empty_subset _

/-- The stack loop only overwrites entries, so it preserves the length of
the keep array. -/
theorem rdpLoop_length (points : List Pt) (ε : ℝ) :
    ∀ n stack keep, 2 * stackMeasure stack + stack.length ≤ n →
      (rdpLoop points ε stack keep).length = keep.length := by
  intro n
  induction n with
  | zero =>
    intro stack keep hn
    have : stack = [] := by
      cases stack with
      | nil => rfl
      | cons p rest => simp [List.length_cons] at hn
    subst this
    rw [rdpLoop]
  | succ n ih =>
    intro stack keep hn
    cases stack with
    | nil => rw [rdpLoop]
    | cons p rest =>
      obtain ⟨s, e⟩ := p
      rw [rdpLoop]
      split
      case isTrue h =>
        rcases rdpScan_spec points s e with ⟨hres, -⟩ | ⟨i, h1, h2, hres, -, -, -⟩
        · rw [hres] at h
          exact absurd rfl h.2
        · have htn : (rdpScan points s e).2.toNat = i := by
            rw [hres, Int.toNat_ofNat]
          rw [htn]
          have := ih ((i, e) :: (s, i) :: rest) (keep.set i true) (by
            simp only [stackMeasure, List.foldr_cons, List.length_cons] at hn ⊢
            omega)
          rw [this, List.length_set]
      case isFalse h =>
        refine ih rest keep ?_
        simp only [stackMeasure, List.foldr_cons, List.length_cons] at hn ⊢
        omega


/-- Reading a just-set `True` entry of the keep array. -/
theorem getD_set_true_iff (keep : List Bool) (i j : ℕ) (hi : i < keep.length) :
    ((keep.set i true).getD j false = true) ↔ (j = i ∨ keep.getD j false = true) := by
  by_cases hji : j = i
  · subst hji
    simp [List.getD_eq_getElem?_getD, List.getElem?_set_self hi]
  · rw [List.getD_eq_getElem?_getD, List.getElem?_set_ne (fun h => hji h.symm),
      ← List.getD_eq_getElem?_getD]
    constructor
    · exact fun h => Or.inr h
    · rintro (h | h)
      · exact absurd h hji
      · exact h

/-- What the stack loop marks: an index ends up `True` exactly when it was
already `True` or it belongs to the kept set of one of the pending
intervals. -/
theorem rdpLoop_getD (points : List Pt) (ε : ℝ) :
    ∀ n stack keep, 2 * stackMeasure stack + stack.length ≤ n →
      (∀ p ∈ stack, p.2 < keep.length) → ∀ j,
      ((rdpLoop points ε stack keep).getD j false = true ↔
        keep.getD j false = true ∨ ∃ p ∈ stack, j ∈ rdpKeep points ε p.1 p.2) := by
  intro n
  induction n with
  | zero =>
    intro stack keep hn hs j
    have : stack = [] := by
      cases stack with
      | nil => rfl
      | cons p rest => simp [List.length_cons] at hn
    subst this
    rw [rdpLoop]
    simp
  | succ n ih =>
    intro stack keep hn hs j
    cases stack with
    | nil =>
      rw [rdpLoop]
      simp
    | cons p rest =>
      obtain ⟨s, e⟩ := p
      have hse : e < keep.length := hs (s, e) (List.mem_cons_self _ _)
      rw [rdpLoop]
      split
      case isTrue h =>
        rcases rdpScan_spec points s e with ⟨hres, -⟩ | ⟨i, h1, h2, hres, -, -, -⟩
        · rw [hres] at h
          exact absurd rfl h.2
        · have htn : (rdpScan points s e).2.toNat = i := by
            rw [hres, Int.toNat_ofNat]
          rw [htn]
          have hik : i < keep.length := lt_trans h2 hse
          have hmeas : 2 * stackMeasure ((i, e) :: (s, i) :: rest) +
              ((i, e) :: (s, i) :: rest).length ≤ n := by
            simp only [stackMeasure, List.foldr_cons, List.length_cons] at hn ⊢
            omega
          have hinv : ∀ q ∈ (i, e) :: (s, i) :: rest, q.2 < (keep.set i true).length := by
            intro q hq
            rw [List.length_set]
            rcases List.mem_cons.mp hq with rfl | hq
            · exact hse
            · rcases List.mem_cons.mp hq with rfl | hq
              · exact hik
              · exact hs q (List.mem_cons_of_mem _ hq)
          rw [ih ((i, e) :: (s, i) :: rest) (keep.set i true) hmeas hinv j]
          rw [getD_set_true_iff keep i j hik]
          have hK := rdpKeep_split points ε s e i h (by rw [hres])
          simp only [List.mem_cons]
          constructor
          · rintro ((rfl | hkj) | ⟨q, (rfl | rfl | hq), hmem⟩)
            · refine Or.inr ⟨(s, e), Or.inl rfl, ?_⟩
              show j ∈ rdpKeep points ε s e
              rw [hK]
              simp
            · exact Or.inl hkj
            · have hmem' : j ∈ rdpKeep points ε i e := hmem
              refine Or.inr ⟨(s, e), Or.inl rfl, ?_⟩
              show j ∈ rdpKeep points ε s e
              rw [hK]
              exact Finset.mem_union_right _ hmem'
            · have hmem' : j ∈ rdpKeep points ε s i := hmem
              refine Or.inr ⟨(s, e), Or.inl rfl, ?_⟩
              show j ∈ rdpKeep points ε s e
              rw [hK]
              exact Finset.mem_union_left _ (Finset.mem_union_right _ hmem')
            · exact Or.inr ⟨q, Or.inr hq, hmem⟩
          · rintro (hkj | ⟨q, (rfl | hq), hmem⟩)
            · exact Or.inl (Or.inr hkj)
            · have hmem' : j ∈ rdpKeep points ε s e := hmem
              rw [hK] at hmem'
              simp only [Finset.mem_union, Finset.mem_singleton] at hmem'
              rcases hmem' with (rfl | hL) | hR
              · exact Or.inl (Or.inl rfl)
              · exact Or.inr ⟨(s, i), Or.inr (Or.inl rfl), hL⟩
              · exact Or.inr ⟨(i, e), Or.inl rfl, hR⟩
            · exact Or.inr ⟨q, Or.inr (Or.inr hq), hmem⟩
      case isFalse h =>
        have hmeas : 2 * stackMeasure rest + rest.length ≤ n := by
          simp only [stackMeasure, List.foldr_cons, List.length_cons] at hn ⊢
          omega
        rw [ih rest keep hmeas (fun q hq => hs q (List.mem_cons_of_mem _ hq)) j]
        have hK := rdpKeep_no_split points ε s e h
        simp only [List.mem_cons]
        constructor
        · rintro (hkj | ⟨q, hq, hmem⟩)
          · exact Or.inl hkj
          · exact Or.inr ⟨q, Or.inr hq, hmem⟩
        · rintro (hkj | ⟨q, (rfl | hq), hmem⟩)
          · exact Or.inl hkj
          · have hmem' : j ∈ rdpKeep points ε s e := hmem
            rw [hK] at hmem'
            exact absurd hmem' (Finset.not_mem_empty j)
          · exact Or.inr ⟨q, hq, hmem⟩


/-- The keep array has the same length as the point list. -/
theorem rdpKeepArray_length (points : List Pt) (ε : ℝ) :
    (rdpKeepArray points ε).length = points.length := by
  rw [rdpKeepArray,
    rdpLoop_length points ε
      (2 * stackMeasure [(0, points.length - 1)] + 1) _ _ (le_of_eq rfl)]
  simp

/-- Characterisation of the final keep array: an index is kept exactly when
it is an endpoint or is marked by the stack process of `(0, n - 1)`. -/
theorem rdpKeepArray_getD (points : List Pt) (ε : ℝ) (h3 : 3 ≤ points.length) (j : ℕ) :
    ((rdpKeepArray points ε).getD j false = true ↔
      j = 0 ∨ j = points.length - 1 ∨ j ∈ rdpKeep points ε 0 (points.length - 1)) := by
  have hlen0 : (((List.replicate points.length false).set 0 true).set
      (points.length - 1) true).length = points.length := by simp
  have hinv : ∀ p ∈ [(0, points.length - 1)],
      p.2 < (((List.replicate points.length false).set 0 true).set
        (points.length - 1) true).length := by
    intro p hp
    rcases List.mem_cons.mp hp with rfl | hp
    · rw [hlen0]
      omega
    · simp at hp
  rw [rdpKeepArray,
    rdpLoop_getD points ε (2 * stackMeasure [(0, points.length - 1)] + 1) _ _
      (le_of_eq rfl) hinv j]
  have hk1 : (((List.replicate points.length false).set 0 true).set
      (points.length - 1) true).getD j false = true ↔
      (j = points.length - 1 ∨ j = 0) := by
    rw [getD_set_true_iff _ _ _ (by simp; omega)]
    rw [getD_set_true_iff _ _ _ (by simp; omega)]
    have hrep : (List.replicate points.length false).getD j false = false := by
      rw [List.getD_eq_getElem?_getD, List.getElem?_replicate]
      split <;> rfl
    rw [hrep]
    simp
  rw [hk1]
  constructor
  · rintro ((rfl | rfl) | ⟨q, hq, hmem⟩)
    · exact Or.inr (Or.inl rfl)
    · exact Or.inl rfl
    · rcases List.mem_cons.mp hq with rfl | hq
      · exact Or.inr (Or.inr hmem)
      · simp at hq
  · rintro (rfl | rfl | hmem)
    · exact Or.inl (Or.inr rfl)
    · exact Or.inl (Or.inl rfl)
    · exact Or.inr ⟨(0, points.length - 1), List.mem_cons_self _ _, hmem⟩

/-- `maskFilter` keeps a point whose mask entry is true. -/
theorem maskFilter_cons_true (p : Pt) (ps : List Pt) (ks : List Bool) :
    maskFilter (p :: ps) (true :: ks) = p :: maskFilter ps ks := by
  simp [maskFilter]

/-- `maskFilter` drops a point whose mask entry is false. -/
theorem maskFilter_cons_false (p : Pt) (ps : List Pt) (ks : List Bool) :
    maskFilter (p :: ps) (false :: ks) = maskFilter ps ks := by
  simp [maskFilter]

/-- `maskFilter` as selection of the positions whose mask entry is true. -/
theorem maskFilter_eq_range (ps : List Pt) :
    ∀ ks : List Bool, ks.length = ps.length →
      maskFilter ps ks =
        ((List.range ps.length).filter (fun j => ks.getD j false)).map
          (fun j => ps.getD j (0, 0)) := by
  induction ps with
  | nil =>
    intro ks hlen
    have hks : ks = [] := List.length_eq_zero.mp (by simpa using hlen)
    subst hks
    rfl
  | cons p ps ih =>
    intro ks hlen
    cases ks with
    | nil => simp at hlen
    | cons k ks =>
      have hlen' : ks.length = ps.length := by simpa using hlen
      have hmap : ∀ l : List ℕ,
          (List.map Nat.succ l).filter (fun j => (k :: ks).getD j false) =
            List.map Nat.succ (l.filter (fun j => ks.getD j false)) := by
        intro l
        rw [List.filter_map]
        congr 1
      have htail :
          (List.map Nat.succ ((List.range ps.length).filter (fun j => ks.getD j false))).map
              (fun j => (p :: ps).getD j (0, 0)) =
            ((List.range ps.length).filter (fun j => ks.getD j false)).map
              (fun j => ps.getD j (0, 0)) := by
        rw [List.map_map]
        congr 1
      rw [List.length_cons, List.range_succ_eq_map, List.filter_cons]
      cases k with
      | true =>
        rw [maskFilter_cons_true,
          if_pos (show (true :: ks).getD 0 false = true from rfl),
          List.map_cons, hmap, htail, ih ks hlen']
        rfl
      | false =>
        rw [maskFilter_cons_false, if_neg (by simp), hmap, htail, ih ks hlen']


/-- On a sorted (strictly increasing) index list, positions are ordered as
their entries. -/
theorem sorted_getD_lt (l : List ℕ) (hl : l.Pairwise (· < ·)) (a b : ℕ)
    (ha : a < l.length) (hb : b < l.length) (hab : a < b) :
    l.getD a 0 < l.getD b 0 := by
  have := List.pairwise_iff_get.mp hl ⟨a, ha⟩ ⟨b, hb⟩ hab
  simpa [List.getD_eq_getElem?_getD, List.getElem?_eq_getElem, ha, hb, List.get_eq_getElem]
    using this

/-- Positions reflect the order of entries on a sorted index list. -/
theorem sorted_getD_reflect (l : List ℕ) (hl : l.Pairwise (· < ·)) (a b : ℕ)
    (ha : a < l.length) (hb : b < l.length) (hab : l.getD a 0 < l.getD b 0) :
    a < b := by
  rcases lt_trichotomy a b with h | rfl | h
  · exact h
  · exact absurd hab (lt_irrefl _)
  · exact absurd (sorted_getD_lt l hl b a hb ha h) (by omega)

/-- Reading a mapped list by position. -/
theorem getD_map_lt (f : ℕ → Pt) (l : List ℕ) (c : ℕ) (h : c < l.length) :
    (l.map f).getD c (0, 0) = f (l.getD c 0) := by
  rw [List.getD_eq_getElem?_getD, List.getD_eq_getElem?_getD,
    List.getElem?_map, List.getElem?_eq_getElem h]
  rfl

/-- The kept index list is strictly increasing. -/
theorem rdpKept_pairwise (points : List Pt) (ε : ℝ) :
    (rdpKept points ε).Pairwise (· < ·) :=
  List.Pairwise.sublist (List.filter_sublist _) (List.pairwise_lt_range _)

/-- Membership in the kept index list. -/
theorem rdpKept_mem (points : List Pt) (ε : ℝ) (j : ℕ) :
    j ∈ rdpKept points ε ↔
      j < points.length ∧ (rdpKeepArray points ε).getD j false = true := by
  rw [rdpKept, List.mem_filter, List.mem_range]

/-- A position of the kept index list is a member. -/
theorem rdpKept_getD_mem (points : List Pt) (ε : ℝ) (a : ℕ)
    (ha : a < (rdpKept points ε).length) :
    (rdpKept points ε).getD a 0 ∈ rdpKept points ε := by
  rw [List.getD_eq_getElem?_getD, List.getElem?_eq_getElem ha]
  exact List.getElem_mem _

/-- Every member of the kept index list sits at some position. -/
theorem rdpKept_mem_pos (points : List Pt) (ε : ℝ) (j : ℕ)
    (hj : j ∈ rdpKept points ε) :
    ∃ a, a < (rdpKept points ε).length ∧ (rdpKept points ε).getD a 0 = j := by
  obtain ⟨i, hi, hget⟩ := List.mem_iff_getElem.mp hj
  exact ⟨i, hi, by rw [List.getD_eq_getElem?_getD, List.getElem?_eq_getElem hi]; exact hget⟩

/-- On an at-least-3-point input, `rdp_simplify` returns the kept indices
mapped back to points. -/
theorem rdp_simplify_eq_map (points : List Pt) (ε : ℝ) (h3 : 3 ≤ points.length) :
    rdp_simplify points ε =
      (rdpKept points ε).map (fun j => points.getD j (0, 0)) := by
  rw [rdp_simplify, if_neg (by omega), rdpKept,
    maskFilter_eq_range points (rdpKeepArray points ε) (rdpKeepArray_length points ε)]


/-- `head?` of a nonempty list of points, by default-read. -/
theorem head?_eq_getD_zero (l : List Pt) (h : l ≠ []) :
    l.head? = some (l.getD 0 (0, 0)) := by
  cases l with
  | nil => exact absurd rfl h
  | cons p l => rfl

/-- `getLast?` of a nonempty list of points, by default-read. -/
theorem getLast?_eq_getD (l : List Pt) (h : l ≠ []) :
    l.getLast? = some (l.getD (l.length - 1) (0, 0)) := by
  have hlt : l.length - 1 < l.length := by
    cases l with
    | nil => exact absurd rfl h
    | cons p l => simp
  rw [List.getLast?_eq_getElem?, List.getD_eq_getElem?_getD, List.getElem?_eq_getElem hlt]
  rfl

/-- Index 0 is kept. -/
theorem rdpKept_zero_mem (points : List Pt) (ε : ℝ) (h3 : 3 ≤ points.length) :
    0 ∈ rdpKept points ε := by
  rw [rdpKept_mem]
  exact ⟨by omega, (rdpKeepArray_getD points ε h3 0).mpr (Or.inl rfl)⟩

/-- The last input index is kept. -/
theorem rdpKept_last_mem (points : List Pt) (ε : ℝ) (h3 : 3 ≤ points.length) :
    points.length - 1 ∈ rdpKept points ε := by
  rw [rdpKept_mem]
  exact ⟨by omega, (rdpKeepArray_getD points ε h3 _).mpr (Or.inr (Or.inl rfl))⟩

/-- The kept index list starts at 0. -/
theorem rdpKept_getD_zero (points : List Pt) (ε : ℝ) (h3 : 3 ≤ points.length) :
    (rdpKept points ε).getD 0 0 = 0 := by
  obtain ⟨a, ha, hget⟩ := rdpKept_mem_pos points ε 0 (rdpKept_zero_mem points ε h3)
  rcases Nat.eq_zero_or_pos a with rfl | hpos
  · exact hget
  · have := sorted_getD_lt (rdpKept points ε) (rdpKept_pairwise points ε) 0 a
      (by omega) ha hpos
    omega

/-- The kept index list is nonempty; in fact it has at least 2 entries. -/
theorem rdpKept_two_le (points : List Pt) (ε : ℝ) (h3 : 3 ≤ points.length) :
    2 ≤ (rdpKept points ε).length := by
  obtain ⟨a, ha, hgeta⟩ := rdpKept_mem_pos points ε 0 (rdpKept_zero_mem points ε h3)
  obtain ⟨b, hb, hgetb⟩ := rdpKept_mem_pos points ε (points.length - 1)
    (rdpKept_last_mem points ε h3)
  have hab : a ≠ b := by
    intro h
    rw [h, hgetb] at hgeta
    omega
  omega

/-- The kept index list ends at the last input index. -/
theorem rdpKept_getD_last (points : List Pt) (ε : ℝ) (h3 : 3 ≤ points.length) :
    (rdpKept points ε).getD ((rdpKept points ε).length - 1) 0 = points.length - 1 := by
  obtain ⟨b, hb, hget⟩ := rdpKept_mem_pos points ε (points.length - 1)
    (rdpKept_last_mem points ε h3)
  have hm2 := rdpKept_two_le points ε h3
  rcases Nat.lt_or_ge b ((rdpKept points ε).length - 1) with hlt | hge
  · have hmono := sorted_getD_lt (rdpKept points ε) (rdpKept_pairwise points ε) b
      ((rdpKept points ε).length - 1) hb (by omega) hlt
    have hmem := rdpKept_getD_mem points ε ((rdpKept points ε).length - 1) (by omega)
    rw [rdpKept_mem] at hmem
    omega
  · have : b = (rdpKept points ε).length - 1 := by omega
    rw [← this, hget]

/-- C5 endpoint preservation, `head?` half. -/
theorem rdp_simplify_head? (points : List Pt) (ε : ℝ) :
    (rdp_simplify points ε).head? = points.head? := by
  by_cases h2 : points.length ≤ 2
  · rw [rdp_simplify, if_pos h2]
  · have h3 : 3 ≤ points.length := by omega
    have hne : points ≠ [] := by
      intro h
      rw [h] at h3
      simp at h3
    have hm := rdpKept_two_le points ε h3
    have houtne : (rdpKept points ε).map (fun j => points.getD j (0, 0)) ≠ [] := by
      intro h
      have := congrArg List.length h
      rw [List.length_map, List.length_nil] at this
      omega
    rw [rdp_simplify_eq_map points ε h3, head?_eq_getD_zero _ houtne,
      head?_eq_getD_zero points hne,
      getD_map_lt (fun j => points.getD j (0, 0)) (rdpKept points ε) 0 (by omega),
      rdpKept_getD_zero points ε h3]

/-- C5 endpoint preservation, `getLast?` half. -/
theorem rdp_simplify_getLast? (points : List Pt) (ε : ℝ) :
    (rdp_simplify points ε).getLast? = points.getLast? := by
  by_cases h2 : points.length ≤ 2
  · rw [rdp_simplify, if_pos h2]
  · have h3 : 3 ≤ points.length := by omega
    have hne : points ≠ [] := by
      intro h
      rw [h] at h3
      simp at h3
    have hm := rdpKept_two_le points ε h3
    have houtne : (rdpKept points ε).map (fun j => points.getD j (0, 0)) ≠ [] := by
      intro h
      have := congrArg List.length h
      rw [List.length_map, List.length_nil] at this
      omega
    rw [rdp_simplify_eq_map points ε h3, getLast?_eq_getD _ houtne,
      getLast?_eq_getD points hne]
    rw [List.length_map]
    rw [getD_map_lt (fun j => points.getD j (0, 0)) (rdpKept points ε)
      ((rdpKept points ε).length - 1) (by omega), rdpKept_getD_last points ε h3]


/-- A mask that is true on every position keeps the whole list. -/
theorem maskFilter_all (ps : List Pt) :
    ∀ ks : List Bool, ks.length = ps.length →
      (∀ j, j < ps.length → ks.getD j false = true) → maskFilter ps ks = ps := by
  induction ps with
  | nil =>
    intro ks hlen hall
    have hks : ks = [] := List.length_eq_zero.mp (by simpa using hlen)
    subst hks
    rfl
  | cons p ps ih =>
    intro ks hlen hall
    cases ks with
    | nil => simp at hlen
    | cons k ks =>
      have hk : k = true := hall 0 (by simp)
      subst hk
      rw [maskFilter_cons_true, ih ks (by simpa using hlen)
        (fun j hj => hall (j + 1) (by simpa using hj))]


/-- Core correspondence for idempotence: rerunning the stack process on the
kept points of a processed interval splits at exactly the kept positions,
so every position strictly between two corresponding endpoints is marked
again. -/
theorem rdp_corr (points : List Pt) (ε : ℝ) (h3 : 3 ≤ points.length) :
    ∀ N a b,
      (rdpKept points ε).getD b 0 - (rdpKept points ε).getD a 0 ≤ N →
      a < b →
      b < (rdpKept points ε).length →
      (∀ j, (j ∈ rdpKept points ε ∧ (rdpKept points ε).getD a 0 < j ∧
          j < (rdpKept points ε).getD b 0) ↔
        j ∈ rdpKeep points ε ((rdpKept points ε).getD a 0) ((rdpKept points ε).getD b 0)) →
      rdpKeep ((rdpKept points ε).map (fun j => points.getD j (0, 0))) ε a b =
        Finset.Ioo a b := by
  intro N
  induction N with
  | zero =>
    intro a b hN hab hb hH
    have := sorted_getD_lt (rdpKept points ε) (rdpKept_pairwise points ε) a b
      (by omega) hb hab
    omega
  | succ N ih =>
    intro a b hN hab hb hH
    have hsorted := rdpKept_pairwise points ε
    have hse : (rdpKept points ε).getD a 0 < (rdpKept points ε).getD b 0 :=
      sorted_getD_lt _ hsorted a b (by omega) hb hab
    have hD : ∀ c, c < (rdpKept points ε).length →
        rdpD ((rdpKept points ε).map (fun j => points.getD j (0, 0))) a b c =
          rdpD points ((rdpKept points ε).getD a 0) ((rdpKept points ε).getD b 0)
            ((rdpKept points ε).getD c 0) := by
      intro c hc
      rw [rdpD, rdpD]
      rw [getD_map_lt (fun j => points.getD j (0, 0)) (rdpKept points ε) c hc,
        getD_map_lt (fun j => points.getD j (0, 0)) (rdpKept points ε) a (by omega),
        getD_map_lt (fun j => points.getD j (0, 0)) (rdpKept points ε) b hb]
    by_cases hsplit : ε < (rdpScan points ((rdpKept points ε).getD a 0)
        ((rdpKept points ε).getD b 0)).1 ∧
        (rdpScan points ((rdpKept points ε).getD a 0)
          ((rdpKept points ε).getD b 0)).2 ≠ -1
    · rcases rdpScan_spec points ((rdpKept points ε).getD a 0)
          ((rdpKept points ε).getD b 0) with ⟨hres, -⟩ |
          ⟨i, h1, h2, hres, hgt, hall, hfirst⟩
      · rw [hres] at hsplit
        exact absurd rfl hsplit.2
      · have hεd : ε < rdpD points ((rdpKept points ε).getD a 0)
            ((rdpKept points ε).getD b 0) i := by
          have := hsplit.1
          rw [hres] at this
          exact this
        have hKs := rdpKeep_split points ε ((rdpKept points ε).getD a 0)
          ((rdpKept points ε).getD b 0) i hsplit (by rw [hres])
        have hiK : i ∈ rdpKept points ε ∧ (rdpKept points ε).getD a 0 < i ∧
            i < (rdpKept points ε).getD b 0 := by
          refine (hH i).mpr ?_
          rw [hKs]
          simp
        obtain ⟨c, hc, hgetc⟩ := rdpKept_mem_pos points ε i hiK.1
        have hac : a < c := by
          refine sorted_getD_reflect _ hsorted a c (by omega) hc ?_
          rw [hgetc]
          exact hiK.2.1
        have hcb : c < b := by
          refine sorted_getD_reflect _ hsorted c b hc hb ?_
          rw [hgetc]
          exact hiK.2.2
        have hsubL := rdpKeep_subset points ε
          (i - (rdpKept points ε).getD a 0) ((rdpKept points ε).getD a 0) i (le_refl _)
        have hsubR := rdpKeep_subset points ε
          ((rdpKept points ε).getD b 0 - i) i ((rdpKept points ε).getD b 0) (le_refl _)
        have hHL : ∀ j, (j ∈ rdpKept points ε ∧ (rdpKept points ε).getD a 0 < j ∧
            j < i) ↔ j ∈ rdpKeep points ε ((rdpKept points ε).getD a 0) i := by
          intro j
          constructor
          · rintro ⟨hjk, hsj, hji⟩
            have hje : j < (rdpKept points ε).getD b 0 := lt_trans hji hiK.2.2
            have := (hH j).mp ⟨hjk, hsj, hje⟩
            rw [hKs] at this
            simp only [Finset.mem_union, Finset.mem_singleton] at this
            rcases this with (rfl | hL) | hR
            · exact absurd hji (lt_irrefl _)
            · exact hL
            · have := hsubR hR
              rw [Finset.mem_Ioo] at this
              omega
          · intro hj
            have hio := hsubL hj
            rw [Finset.mem_Ioo] at hio
            have hjse : j ∈ rdpKeep points ε ((rdpKept points ε).getD a 0)
                ((rdpKept points ε).getD b 0) := by
              rw [hKs]
              exact Finset.mem_union_left _ (Finset.mem_union_right _ hj)
            have := (hH j).mpr hjse
            exact ⟨this.1, hio.1, hio.2⟩
        have hHR : ∀ j, (j ∈ rdpKept points ε ∧ i < j ∧
            j < (rdpKept points ε).getD b 0) ↔
            j ∈ rdpKeep points ε i ((rdpKept points ε).getD b 0) := by
          intro j
          constructor
          · rintro ⟨hjk, hij, hje⟩
            have hsj : (rdpKept points ε).getD a 0 < j := lt_trans hiK.2.1 hij
            have := (hH j).mp ⟨hjk, hsj, hje⟩
            rw [hKs] at this
            simp only [Finset.mem_union, Finset.mem_singleton] at this
            rcases this with (rfl | hL) | hR
            · exact absurd hij (lt_irrefl _)
            · have := hsubL hL
              rw [Finset.mem_Ioo] at this
              omega
            · exact hR
          · intro hj
            have hio := hsubR hj
            rw [Finset.mem_Ioo] at hio
            have hjse : j ∈ rdpKeep points ε ((rdpKept points ε).getD a 0)
                ((rdpKept points ε).getD b 0) := by
              rw [hKs]
              exact Finset.mem_union_right _ hj
            have := (hH j).mpr hjse
            exact ⟨this.1, hio.1, hio.2⟩
        have hscan' : rdpScan ((rdpKept points ε).map (fun j => points.getD j (0, 0))) a b =
            (rdpD points ((rdpKept points ε).getD a 0) ((rdpKept points ε).getD b 0) i,
              (c : Int)) := by
          rcases rdpScan_spec ((rdpKept points ε).map (fun j => points.getD j (0, 0))) a b
            with ⟨hres', hall'⟩ | ⟨c', h1', h2', hres', hgt', hall', hfirst'⟩
          · have := hall' c (by omega) hcb
            rw [hD c (by omega), hgetc] at this
            exact absurd hgt (by linarith)
          · have hq'lt : c' < (rdpKept points ε).length := by omega
            have hq's : (rdpKept points ε).getD a 0 < (rdpKept points ε).getD c' 0 :=
              sorted_getD_lt _ hsorted a c' (by omega) hq'lt (by omega)
            have hq'e : (rdpKept points ε).getD c' 0 < (rdpKept points ε).getD b 0 :=
              sorted_getD_lt _ hsorted c' b hq'lt hb h2'
            have hDq' := hD c' hq'lt
            have hmax1 : rdpD points ((rdpKept points ε).getD a 0)
                ((rdpKept points ε).getD b 0) ((rdpKept points ε).getD c' 0) ≤
                rdpD points ((rdpKept points ε).getD a 0)
                  ((rdpKept points ε).getD b 0) i :=
              hall _ (by omega) hq'e
            have hmax2 : rdpD points ((rdpKept points ε).getD a 0)
                ((rdpKept points ε).getD b 0) i ≤
                rdpD points ((rdpKept points ε).getD a 0)
                  ((rdpKept points ε).getD b 0) ((rdpKept points ε).getD c' 0) := by
              have := hall' c (by omega) hcb
              rw [hD c (by omega), hgetc, hDq'] at this
              exact this
            have heqd : rdpD points ((rdpKept points ε).getD a 0)
                ((rdpKept points ε).getD b 0) ((rdpKept points ε).getD c' 0) =
                rdpD points ((rdpKept points ε).getD a 0)
                  ((rdpKept points ε).getD b 0) i := le_antisymm hmax1 hmax2
            have hcc : c' = c := by
              rcases lt_trichotomy c' c with hlt | heq | hgtc
              · have hq'i : (rdpKept points ε).getD c' 0 < i := by
                  have := sorted_getD_lt _ hsorted c' c hq'lt hc hlt
                  omega
                have := hfirst _ (by omega) hq'i
                rw [heqd] at this
                exact absurd this (lt_irrefl _)
              · exact heq
              · have := hfirst' c (by omega) hgtc
                rw [hD c (by omega), hgetc, hDq', heqd] at this
                exact absurd this (lt_irrefl _)
            rw [hcc] at hres'
            rw [hres', hD c (by omega), hgetc]
        have hsplit' : ε < (rdpScan ((rdpKept points ε).map
            (fun j => points.getD j (0, 0))) a b).1 ∧
            (rdpScan ((rdpKept points ε).map (fun j => points.getD j (0, 0))) a b).2 ≠ -1 := by
          rw [hscan']
          refine ⟨hεd, ?_⟩
          intro hEq
          omega
        have hKs' := rdpKeep_split ((rdpKept points ε).map (fun j => points.getD j (0, 0)))
          ε a b c hsplit' (by rw [hscan'])
        have hNL : (rdpKept points ε).getD c 0 - (rdpKept points ε).getD a 0 ≤ N := by
          rw [hgetc]
          omega
        have hNR : (rdpKept points ε).getD b 0 - (rdpKept points ε).getD c 0 ≤ N := by
          rw [hgetc]
          omega
        have ihL := ih a c hNL hac (by omega) (by
          intro j
          rw [hgetc]
          exact hHL j)
        have ihR := ih c b hNR hcb hb (by
          intro j
          rw [hgetc]
          exact hHR j)
        rw [hKs', ihL, ihR]
        ext j
        simp only [Finset.mem_union, Finset.mem_singleton, Finset.mem_Ioo]
        omega
    · have hb1 : b = a + 1 := by
        by_contra hne
        have hab1 : a + 1 < b := by omega
        have hq := rdpKept_getD_mem points ε (a + 1) (by omega)
        have hqs : (rdpKept points ε).getD a 0 < (rdpKept points ε).getD (a + 1) 0 :=
          sorted_getD_lt _ hsorted a (a + 1) (by omega) (by omega) (by omega)
        have hqe : (rdpKept points ε).getD (a + 1) 0 < (rdpKept points ε).getD b 0 :=
          sorted_getD_lt _ hsorted (a + 1) b (by omega) hb hab1
        have hin := (hH ((rdpKept points ε).getD (a + 1) 0)).mp ⟨hq, hqs, hqe⟩
        rw [rdpKeep_no_split _ _ _ _ hsplit] at hin
        exact absurd hin (Finset.not_mem_empty _)
      subst hb1
      have hscan0 : rdpScan ((rdpKept points ε).map (fun j => points.getD j (0, 0)))
          a (a + 1) = (-1, -1) := by
        rw [rdpScan]
        simp
      rw [rdpKeep_no_split _ _ _ _ (by
        rw [hscan0]
        rintro ⟨-, hne2⟩
        exact hne2 rfl)]
      ext j
      simp only [Finset.not_mem_empty, Finset.mem_Ioo, false_iff]
      omega


/-- C5 idempotence: a second run of `rdp_simplify` with the same epsilon
returns its input unchanged. -/
theorem rdp_simplify_idem (points : List Pt) (ε : ℝ) :
    rdp_simplify (rdp_simplify points ε) ε = rdp_simplify points ε := by
  by_cases h2 : points.length ≤ 2
  · have h0 : rdp_simplify points ε = points := by rw [rdp_simplify, if_pos h2]
    rw [h0, h0]
  · have h3 : 3 ≤ points.length := by omega
    have hout := rdp_simplify_eq_map points ε h3
    have hm := rdpKept_two_le points ε h3
    have hlenout : ((rdpKept points ε).map (fun j => points.getD j (0, 0))).length =
        (rdpKept points ε).length := List.length_map _ _
    by_cases hm2 : ((rdpKept points ε).map (fun j => points.getD j (0, 0))).length ≤ 2
    · rw [hout, rdp_simplify, if_pos hm2]
    · have hm3 : 3 ≤ ((rdpKept points ε).map (fun j => points.getD j (0, 0))).length := by
        omega
      have hH : ∀ j, (j ∈ rdpKept points ε ∧ (rdpKept points ε).getD 0 0 < j ∧
          j < (rdpKept points ε).getD ((rdpKept points ε).length - 1) 0) ↔
          j ∈ rdpKeep points ε ((rdpKept points ε).getD 0 0)
            ((rdpKept points ε).getD ((rdpKept points ε).length - 1) 0) := by
        intro j
        rw [rdpKept_getD_zero points ε h3, rdpKept_getD_last points ε h3]
        constructor
        · rintro ⟨hjk, hj0, hjl⟩
          rw [rdpKept_mem] at hjk
          rcases (rdpKeepArray_getD points ε h3 j).mp hjk.2 with rfl | heq | hmem
          · omega
          · omega
          · exact hmem
        · intro hj
          have hio := rdpKeep_subset points ε (points.length - 1) 0 (points.length - 1)
            (le_refl _) hj
          rw [Finset.mem_Ioo] at hio
          refine ⟨?_, hio.1, hio.2⟩
          rw [rdpKept_mem]
          exact ⟨by omega, (rdpKeepArray_getD points ε h3 j).mpr (Or.inr (Or.inr hj))⟩
      have hcorr := rdp_corr points ε h3
        ((rdpKept points ε).getD ((rdpKept points ε).length - 1) 0 -
          (rdpKept points ε).getD 0 0)
        0 ((rdpKept points ε).length - 1) (le_refl _) (by omega) (by omega) hH
      have hallK : ∀ j, j < ((rdpKept points ε).map (fun j => points.getD j (0, 0))).length →
          (rdpKeepArray ((rdpKept points ε).map (fun j => points.getD j (0, 0))) ε).getD
            j false = true := by
        intro j hj
        rw [rdpKeepArray_getD _ ε hm3 j]
        rcases Nat.eq_zero_or_pos j with rfl | hj0
        · exact Or.inl rfl
        rcases Nat.lt_or_ge j
            (((rdpKept points ε).map (fun j => points.getD j (0, 0))).length - 1)
          with hjl | hjg
        · refine Or.inr (Or.inr ?_)
          rw [hlenout] at hjl ⊢
          rw [hcorr, Finset.mem_Ioo]
          omega
        · exact Or.inr (Or.inl (by omega))
      rw [hout, rdp_simplify, if_neg (by omega)]
      exact maskFilter_all _ _ (rdpKeepArray_length _ ε) hallK


/-- C5. `rdp_simplify` returns an unchanged copy on inputs of at most 2
points, always preserves the first and last input point, and is
idempotent. -/
theorem rdp_simplify_spec (p : List Pt) (ε : ℝ) :
    (p.length ≤ 2 → rdp_simplify p ε = p) ∧
    (rdp_simplify p ε).head? = p.head? ∧
    (rdp_simplify p ε).getLast? = p.getLast? ∧
    rdp_simplify (rdp_simplify p ε) ε = rdp_simplify p ε :=
  ⟨fun h2 => by rw [rdp_simplify, if_pos h2],
    rdp_simplify_head? p ε, rdp_simplify_getLast? p ε, rdp_simplify_idem p ε⟩

/-- Witness for `rdp_simplify_spec` at a two-point polyline. -/
theorem rdp_simplify_spec_witness :
    rdp_simplify [((0 : ℝ), (0 : ℝ)), ((2 : ℝ), (3 : ℝ))] 1 =
      [((0 : ℝ), (0 : ℝ)), ((2 : ℝ), (3 : ℝ))] :=
  (rdp_simplify_spec [((0 : ℝ), (0 : ℝ)), ((2 : ℝ), (3 : ℝ))] 1).1 (by simp)

end ORinGD
